import Mathlib

/-!
Verification development for the qtau heterogeneous compute dispatch
service.  The definitions below are shallow embeddings of the Python
sources under `src/pilot/`:

* `pilot/dreamer.py` — quantum resources, selection strategies, the
  `Q_DREAMER` selector and the circuit-cut planner `get_cut_plan`;
* `pilot/pilot_compute_service.py` — the classical task wrapper
  `task_func` and the catalogue assembly in `initialize_dreamer`;
* `pilot/services/quantum_execution_service.py` — executor-family
  derivation and circuit dispatch on the worker.

Python floats are modelled by `ℚ`; the transcendental ingredients of the
planner (the `log` used for edge costs and the quality score, and the
`sin`/`√2`-based entries of the gate-overhead table) are abstracted into
function parameters, so every theorem below holds for every valuation of
those parameters, in particular for the real one.  Python dicts are
modelled by association lists in insertion order, Python sets by
`Finset`.
-/

namespace Qtau

/-- Embeds `QuantumResource` from `pilot/dreamer.py` (all constructor
fields; `quantum_config` is an opaque string map, `pilot_name` the
optional origin tag). Rates are `ℚ` in place of Python floats. -/
structure QuantumResource where
  name : String
  qubit_count : ℕ
  gateset : List String
  error_rate : ℚ
  noise_level : ℚ
  quantum_config : List (String × String)
  pilot_name : Option String
deriving DecidableEq, Repr

/-- Embeds `DreamerStrategyType` from `pilot/dreamer.py`. -/
inductive DreamerStrategyType where
  | least_error_rate
  | round_robin
  | least_busy
deriving DecidableEq, Repr

/-- Python's `min(xs, key=f)` over a non-empty list: returns the first
element attaining the minimal key (Python `min` keeps the earliest of
tied elements); `none` on the empty list. -/
def pyMinBy (f : QuantumResource → ℚ) : List QuantumResource → Option QuantumResource
  | [] => none
  | a :: l => some (l.foldl (fun b x => if f x < f b then x else b) a)

/-- A catalogue is a Python dict `name → QuantumResource`, modelled as an
association list in insertion order; `.values()` is the second
projection in order. -/
abbrev Catalogue := List (String × QuantumResource)

/-- Embeds `LeastErrorRateStrategy.select_resource`
(`pilot/dreamer.py:94-99`): `min(resources.values(), key=error_rate)`,
`None` when the dict is empty. The `task` argument is unused by the
source and omitted. -/
def leastErrorRateSelect (resources : Catalogue) : Option QuantumResource :=
  if resources.isEmpty then none
  else pyMinBy (fun x => x.error_rate) (resources.map Prod.snd)

/-- Embeds `LeastBusyStrategy.select_resource`
(`pilot/dreamer.py:101-107`): the first catalogue value, `None` when
empty. -/
def leastBusySelect (resources : Catalogue) : Option QuantumResource :=
  if resources.isEmpty then none
  else (resources.map Prod.snd).head?

/-- Embeds the mutable `RoundRobinStrategy` state
(`pilot/dreamer.py:81-84`): just `current_index`. -/
structure RoundRobinState where
  current_index : ℕ
deriving DecidableEq, Repr

/-- Embeds `RoundRobinStrategy.select_resource`
(`pilot/dreamer.py:86-92`): `None` on an empty dict (index untouched),
otherwise the value at `current_index % len` and the index advances by
one. -/
def roundRobinSelect (st : RoundRobinState) (resources : Catalogue) :
    Option QuantumResource × RoundRobinState :=
  if resources.isEmpty then (none, st)
  else
    let resource_list := resources.map Prod.snd
    (resource_list[st.current_index % resource_list.length]?,
     ⟨st.current_index + 1⟩)

/-- Runs `k` consecutive `RoundRobinStrategy.select_resource` calls on a
fixed catalogue, returning the selections in order (the worker keeps one
strategy object and calls it repeatedly). -/
def roundRobinRun (resources : Catalogue) : RoundRobinState → ℕ → List (Option QuantumResource)
  | _, 0 => []
  | st, k + 1 =>
    let p := roundRobinSelect st resources
    p.1 :: roundRobinRun resources p.2 k

/-- Embeds the selector state of `Q_DREAMER` (`pilot/dreamer.py:478-493`):
the catalogue, the strategy type, and the round-robin index (the only
mutable strategy state). -/
structure QDreamer where
  quantum_resources : Catalogue
  strategy_type : DreamerStrategyType
  rr : RoundRobinState
deriving DecidableEq, Repr

/-- Dispatch of `strategy_selector.select_resource` for the strategy
built by `Q_DREAMER.get_strategy` (`pilot/dreamer.py:485-493`). -/
def QDreamer.selectResource (d : QDreamer) : Option QuantumResource × QDreamer :=
  match d.strategy_type with
  | .least_error_rate => (leastErrorRateSelect d.quantum_resources, d)
  | .round_robin =>
      let p := roundRobinSelect d.rr d.quantum_resources
      (p.1, { d with rr := p.2 })
  | .least_busy => (leastBusySelect d.quantum_resources, d)

/-- Embeds `Q_DREAMER.get_best_resource` (`pilot/dreamer.py:495-508`).
The source delegates to the strategy with **no suitability check** and
then evaluates `best_resource.name` inside a `print`; when the strategy
returned `None` that attribute access raises, modelled as
`Except.error`.  Otherwise the strategy's pick is returned as is. -/
def QDreamer.get_best_resource (d : QDreamer) : Except String QuantumResource × QDreamer :=
  let p := d.selectResource
  match p.1 with
  | none => (Except.error "AttributeError: NoneType has no attribute name", p.2)
  | some r => (Except.ok r, p.2)

/-- Modelled from the spec: gate-name normalization for suitability
(spec §3, `QuantumTask`): lowercase with the alias `cnot → cx`.  The
task-side fields `num-qubits`/`gate-set` and the suitability filter
exist only in the spec and in the second (scoring) selector
implementation, which is not part of the sources under `src/`. -/
def normalizeGate (g : String) : String :=
  let l := g.toLower
  if l = "cnot" then "cx" else l

/-- Modelled from the spec: §3 invariant 5 — a resource is suitable for
a task demanding `num_qubits` qubits and the gates `gate_set` iff
`qubit-count ≥ num-qubits` and the normalized task gates are contained
in the normalized resource gate set. -/
def suitableSpec (res : QuantumResource) (num_qubits : ℕ) (gate_set : List String) : Bool :=
  num_qubits ≤ res.qubit_count &&
    gate_set.all (fun g => (res.gateset.map normalizeGate).contains (normalizeGate g))

/-! ### Classical task wrapper (`pilot/pilot_compute_service.py:116-140`) -/

/-- What a worker-side future reports back to the caller: a normally
returned value (possibly `None`), or a propagated exception. -/
inductive FutureOutcome (α : Type) where
  | value (v : Option α)
  | raised (msg : String)
deriving DecidableEq, Repr

/-- The observable effects of one `task_func` run: the recorded metrics
fields touched by the wrapper and the outcome given to the future. -/
structure TaskRunRecord (α : Type) where
  status : String
  error_msg : Option String
  metrics_rows : ℕ
  future : FutureOutcome α
deriving DecidableEq, Repr

/-- Embeds the closure `task_func` of `submit_task`
(`pilot/pilot_compute_service.py:116-140`).  The user function's run is
summarised by `user : Except String α` (normal value or exception with
`str(e)`).  The source sets `result = None`, runs the user function in a
`try`, records `SUCCESS`, and on exception records `FAILED` with
`str(e)` **without re-raising**; it then writes exactly one metrics row
and executes `return result`, so the future always receives a normal
value — `None` after an exception. -/
def task_func (α : Type) (user : Except String α) : TaskRunRecord α :=
  let r : Option α × String × Option String :=
    match user with
    | .ok v => (some v, "SUCCESS", none)
    | .error e => (none, "FAILED", some e)
  { status := r.2.1
    error_msg := r.2.2
    metrics_rows := 1
    future := FutureOutcome.value r.1 }

/-! ### Worker executor shim (`pilot/services/quantum_execution_service.py`) -/

/-- Character-list version of Python's `pat in s` substring test. -/
def listStarts : List Char → List Char → Bool
  | [], _ => true
  | _ :: _, [] => false
  | a :: asr, b :: bs => a = b && listStarts asr bs

/-- Python's `pat in s` substring containment on strings. -/
def strContains (s pat : String) : Bool :=
  go s.data
where
  go : List Char → Bool
    | [] => pat.data.isEmpty
    | c :: t => listStarts pat.data (c :: t) || go t

/-- Embeds `QuantumExecutionService._get_executor_type_from_resource`
(`pilot/services/quantum_execution_service.py:61-83`): lowercase the
resource name, substring-match against the family names in source
order, default `qiskit`. -/
def getExecutorTypeFromResource (name : String) : String :=
  let resource_name := name.toLower
  if strContains resource_name "qiskit" then "qiskit"
  else if strContains resource_name "pennylane" then "pennylane"
  else if strContains resource_name "braket" then "braket"
  else if strContains resource_name "ibmq" then "ibmq"
  else "qiskit"

/-- The attribute namespace of a `QuantumTask` instance
(`pilot/dreamer.py:24-50`): the instance attributes set by
`Task.__init__`/`QuantumTask.__init__` plus the class property
`circuits`.  (Inherited dunder names are irrelevant here and omitted.)
Python's `task.circuit` raises `AttributeError` exactly when `"circuit"`
is not in this namespace. -/
def quantumTaskAttrs : List String :=
  ["type", "resource_config", "task_id", "args", "kwargs", "_circuits", "circuits"]

/-- Embeds `QuantumTask` as far as the worker pipeline observes it: the
ordered circuit payload behind the `circuits` property; circuits are
opaque (`γ`). -/
structure PyQuantumTask (γ : Type) where
  circuits : List γ
deriving DecidableEq, Repr

/-- Embeds `QuantumExecutionService.execute_circuit`
(`pilot/services/quantum_execution_service.py:26-59`) against the
`QuantumTask` of `pilot/dreamer.py`.  The executor family is derived
from the resource name; the circuit argument is the source's literal
attribute access `quantum_task.circuit`, which succeeds only if
`"circuit"` is an attribute of `QuantumTask` — on failure the
`AttributeError` escapes through the service's bare `raise`.  On the
(unreachable) success path the executor would be invoked with that
payload. -/
def executeCircuit (γ : Type) (task : PyQuantumTask γ) (res : QuantumResource) :
    Except String (String × List γ) :=
  let executor_type := getExecutorTypeFromResource res.name
  if quantumTaskAttrs.contains "circuit" then
    Except.ok (executor_type, task.circuits)
  else
    Except.error "AttributeError: QuantumTask object has no attribute circuit"

/-! ### Catalogue assembly (`pilot/pilot_compute_service.py:268-323`) -/

/-- Python dict assignment `d[k] = v` on an insertion-ordered
association list: overwrite in place if the key exists, else append. -/
def dictInsert (d : Catalogue) (k : String) (v : QuantumResource) : Catalogue :=
  if d.any (fun p => p.1 = k) then
    d.map (fun p => if p.1 = k then (k, v) else p)
  else d ++ [(k, v)]

/-- Python dict lookup `d.get(k)`. -/
def dictGet (d : Catalogue) (k : String) : Option QuantumResource :=
  (d.find? (fun p => p.1 = k)).map Prod.snd

/-- The per-pilot loop body of `initialize_dreamer`
(`pilot/pilot_compute_service.py:305-309`): for each generated resource
`(resource_name, resource)`, insert it under
`f"{pilot_name}_{resource_name}"` and set `resource.name` to that
prefixed key (the source mutates the stored object; functionally the
stored value carries the new name). -/
def installPilotResources (pilot_name : String) (primary_resources : Catalogue)
    (acc : Catalogue) : Catalogue :=
  primary_resources.foldl
    (fun acc p =>
      let prefixed_name := pilot_name ++ "_" ++ p.1
      dictInsert acc prefixed_name { p.2 with name := prefixed_name })
    acc

/-- Embeds the catalogue-assembly phase of
`PilotComputeService.initialize_dreamer`
(`pilot/pilot_compute_service.py:277-312`).  The input is the quantum
pilots in registry order, each paired with the resource dict produced
for it by the external `QuantumResourceGenerator` (an out-of-scope
collaborator, spec §1); starting from an empty dict every pilot's
resources are installed under pilot-prefixed names. -/
def assembleCatalogue (pilots : List (String × Catalogue)) : Catalogue :=
  pilots.foldl (fun acc pr => installPilotResources pr.1 pr.2 acc) []

/-- All prefixed keys contributed during catalogue assembly, in
insertion order. -/
def assembledKeys (pilots : List (String × Catalogue)) : List String :=
  pilots.flatMap (fun pr => pr.2.map (fun p => pr.1 ++ "_" ++ p.1))

/-! ### Circuit-cut planner (`pilot/dreamer.py:112-474`)

Python floats become `ℚ`.  The transcendental pieces — the `log` used
for edge costs and for the quality-score penalty, and the concrete
values of the gate-overhead table (several of which are irrational:
`3 + 2√2`, `(1 + 2|sin θ|)²`) — are collected in a `FloatModel`
parameter; every theorem below is proved for every `FloatModel`, which
subsumes the real-valued one the source uses.  Sorting with Python's
stable `sorted(key=...)` is modelled by insertion sort, which computes
the same permutation for a total preorder on keys. -/

/-- Abstract valuation of the planner's float-valued ingredients:
`fixedVal` the `_FIXED_OVERHEAD` table, `paramVal` the
`_param_overhead` formulas, `log` the natural logarithm. -/
structure FloatModel where
  fixedVal : String → ℚ
  paramVal : String → ℚ → ℚ
  log : ℚ → ℚ

/-- One input edge of the structured-graph form accepted by
`_normalize_input`: `(u, v, gate, theta?)`. -/
structure EdgeSpec where
  u : String
  v : String
  gate : String
  theta : Option ℚ
deriving DecidableEq, Repr

/-- Embeds the `Edge` dataclass (`pilot/dreamer.py:161-168`). -/
structure Edge where
  u : String
  v : String
  gate : String
  theta : Option ℚ
  overhead : ℚ
  cost : ℚ
deriving DecidableEq, Repr

/-- The identification key `(e.u, e.v, e.gate, e.theta)` used for the
`disabled` set in `get_cut_plan`. -/
abbrev EKey := String × String × String × Option ℚ

/-- Forward key of an edge. -/
def ekey (e : Edge) : EKey := (e.u, e.v, e.gate, e.theta)

/-- Reversed key of an edge (the planner also checks
`(e.v, e.u, e.gate, e.theta)`). -/
def rkey (e : Edge) : EKey := (e.v, e.u, e.gate, e.theta)

/-- The gate names of `_FIXED_OVERHEAD` (`pilot/dreamer.py:113-117`). -/
def fixedOverheadKeys : List String :=
  ["cx", "cz", "cy", "ch", "ecr", "cs", "csdg", "csx", "iswap", "dcx"]

/-- The gate names of `_PARAM_GATES` (`pilot/dreamer.py:118`). -/
def paramGateKeys : List String :=
  ["rzz", "rxx", "ryy", "rzx", "crx", "cry", "crz", "cphase"]

/-- Embeds `_gate_overhead` (`pilot/dreamer.py:128-137`): table lookup
on the lowercased gate; parametric gates demand a `theta`; unknown
two-qubit gates raise `ValueError`, modelled by `none` (the caller
`_build_edges` catches the error and drops the edge). -/
def gateOverhead (fm : FloatModel) (gate : String) (theta : Option ℚ) : Option ℚ :=
  let g := gate.toLower
  if fixedOverheadKeys.contains g then some (fm.fixedVal g)
  else if paramGateKeys.contains g then
    match theta with
    | none => none
    | some t => some (fm.paramVal g t)
  else none

/-- Embeds `_build_edges` (`pilot/dreamer.py:196-204`): keep the edges
whose gate is cuttable, attaching overhead `w` and cost `log w`. -/
def buildEdges (fm : FloatModel) (specs : List EdgeSpec) : List Edge :=
  specs.filterMap (fun e =>
    (gateOverhead fm e.gate e.theta).map (fun w =>
      { u := e.u, v := e.v, gate := e.gate, theta := e.theta
        overhead := w, cost := fm.log w }))

/-! The source's `DSU` keeps parent/rank maps with path compression;
only the induced partition of the node set is ever observed (both
`_components` and `_rebuild_fragments` re-bucket the nodes by root in
node order, so the identity of the root is invisible).  We model the
DSU state by a representative assignment `node → representative` and
merge by re-pointing one representative to the other, which produces
the same buckets. -/

/-- DSU state: an association list mapping each node to the
representative of its class. -/
abbrev Rep := List (String × String)

/-- Fresh DSU over the given items: every node its own representative
(`DSU.__init__`, `pilot/dreamer.py:140-143`). -/
def repInit (nodes : List String) : Rep := nodes.map (fun n => (n, n))

/-- `DSU.find` observed through the induced partition: the recorded
representative of `x` (itself if unknown). -/
def repFind (r : Rep) (x : String) : String :=
  match r.find? (fun p => p.1 = x) with
  | some p => p.2
  | none => x

/-- `DSU.union` observed through the induced partition: if the two
classes differ, redirect every member of `b`'s class to `a`'s
representative (`pilot/dreamer.py:149-159`; the source's rank choice
only picks which root survives, which the outputs cannot see). -/
def repUnion (r : Rep) (a b : String) : Rep :=
  let ra := repFind r a
  let rb := repFind r b
  if ra = rb then r
  else r.map (fun p => if p.2 = rb then (p.1, ra) else p)

/-- Worker of `firstDedup`: keep elements not seen before. -/
def firstDedupGo : List String → List String → List String
  | [], _ => []
  | a :: l, seen =>
    if seen.contains a then firstDedupGo l seen
    else a :: firstDedupGo l (a :: seen)

/-- First-occurrence deduplication, as Python's insertion-ordered dict
keys produce. -/
def firstDedup (l : List String) : List String :=
  firstDedupGo l []

/-- Buckets the nodes by representative, members in node order and
buckets ordered by first occurrence — exactly the
`comp.setdefault(root, []).append(n)` loop of `_components` and
`_rebuild_fragments`. -/
def groupByRep (nodes : List String) (r : Rep) : List (List String) :=
  (firstDedup (nodes.map (repFind r))).map
    (fun root => nodes.filter (fun n => repFind r n = root))

/-- The DSU after uniting along every edge. -/
def componentsRep (nodes : List String) (edges : List Edge) : Rep :=
  edges.foldl (fun r e => repUnion r e.u e.v) (repInit nodes)

/-- Embeds `_components` (`pilot/dreamer.py:206-214`). -/
def components (nodes : List String) (edges : List Edge) : List (List String) :=
  groupByRep nodes (componentsRep nodes edges)

/-- Stable sort by a rational key, as Python's `sorted(key=...)`
(insertion sort is stable and agrees with every stable sort for a total
preorder). -/
def pySortByCost (l : List Edge) : List Edge :=
  l.insertionSort (fun a b => a.cost ≤ b.cost)

/-- The accept loop of Kruskal inside `_mst`
(`pilot/dreamer.py:219-226`): take the next edge if its endpoints are
in different classes, and stop early once `len(T) == len(nodes) - 1`
(the comparison is over `ℤ`, as Python's `len(nodes) - 1` can be
`-1`). -/
def kruskalGo (target : ℤ) : List Edge → Rep → List Edge → List Edge
  | [], _, T => T.reverse
  | e :: es, r, T =>
    let step : Rep × List Edge :=
      if repFind r e.u = repFind r e.v then (r, T)
      else (repUnion r e.u e.v, e :: T)
    if (step.2.length : ℤ) = target - 1 then step.2.reverse
    else kruskalGo target es step.1 step.2

/-- Embeds `_mst` (`pilot/dreamer.py:216-226`): restrict to edges inside
the node set, sort by cost, run Kruskal. -/
def mst (nodes : List String) (edges : List Edge) : List Edge :=
  let es := pySortByCost (edges.filter (fun e => nodes.contains e.u && nodes.contains e.v))
  kruskalGo (nodes.length : ℤ) es (repInit nodes) []

/-- Degree of a node in the built edge list (`_filter_active`'s `deg`
map, `pilot/dreamer.py:229-232`). -/
def degreeIn (built : List Edge) (n : String) : ℕ :=
  (built.filter (fun e => e.u = n)).length + (built.filter (fun e => e.v = n)).length

/-- The active nodes: degree strictly positive. -/
def activeNodes (nodes : List String) (built : List Edge) : List String :=
  nodes.filter (fun n => 0 < degreeIn built n)

/-- Embeds `_filter_active` (`pilot/dreamer.py:229-238`). -/
def filterActive (nodes : List String) (built : List Edge) : List String × List Edge :=
  let an := activeNodes nodes built
  if an.isEmpty then ([], [])
  else (an, built.filter (fun e => an.contains e.u && an.contains e.v))

/-- Does the planner's `disabled` set hit this edge, in either
orientation (`pilot/dreamer.py:312-313` and `389-390`)? -/
def disabledHit (disabled : List EKey) (e : Edge) : Bool :=
  disabled.contains (ekey e) || disabled.contains (rkey e)

/-- Embeds `_rebuild_fragments` (`pilot/dreamer.py:309-320`): union
along every non-disabled built edge and bucket the nodes. -/
def rebuildFragments (nodes : List String) (built : List Edge) (disabled : List EKey) :
    List (List String) :=
  let keep := built.filter (fun e => !(disabledHit disabled e))
  groupByRep nodes (componentsRep nodes keep)

/-- A QPU assignment: Python dict `qpu-index → node list`, in insertion
order. -/
abbrev Assignment := List (ℕ × List String)

/-- `placement.setdefault(k, []); placement[k] += frag`
(`pilot/dreamer.py:252-253`). -/
def assignDictAppend (d : Assignment) (k : ℕ) (v : List String) : Assignment :=
  if d.any (fun p => p.1 = k) then
    d.map (fun p => if p.1 = k then (p.1, p.2 ++ v) else p)
  else d ++ [(k, v)]

/-- The inner first-fit search of `_assign_fragments_by_capacity`: the
first bin whose remaining capacity holds `len` qubits; returns its index
and the updated capacities. -/
def tryPlace (len : ℕ) : List ℤ → Option (ℕ × List ℤ)
  | [] => none
  | c :: cs =>
      if (len : ℤ) ≤ c then some (0, (c - (len : ℤ)) :: cs)
      else (tryPlace len cs).map (fun p => (p.1 + 1, c :: p.2))

/-- The placement loop of `_assign_fragments_by_capacity`
(`pilot/dreamer.py:247-258`): place each fragment first-fit, `None` if
one does not fit. -/
def firstFit : List (List String) → List ℤ → Assignment → Option Assignment
  | [], _, placement => some placement
  | frag :: rest, caps, placement =>
    match tryPlace frag.length caps with
    | none => none
    | some p => firstFit rest p.2 (assignDictAppend placement (p.1 + 1) frag)

/-- Embeds `_assign_fragments_by_capacity` (`pilot/dreamer.py:241-263`):
largest fragments first (stable descending sort, Python's
`sorted(key=len, reverse=True)`), then greedy first-fit. -/
def assignFragmentsByCapacity (fragments : List (List String)) (capacities : List ℤ) :
    Option Assignment :=
  let frags := fragments.insertionSort (fun a b => b.length ≤ a.length)
  firstFit frags capacities []

/-- Embeds the `_capacity_ok` closure (`pilot/dreamer.py:323-332`):
no capacities (or an empty list) means no constraint; otherwise first-fit
must succeed against `int(c * 1.2)` per bin (`1.2` idealised to `6/5`;
the claims below do not depend on the tolerance's exact value). -/
def capacityOk (qpu_capacities : Option (List ℤ)) (fragments : List (List String)) : Bool :=
  match qpu_capacities with
  | none => true
  | some caps =>
    if caps.isEmpty then true
    else (assignFragmentsByCapacity fragments
      (caps.map (fun c => Int.floor ((c : ℚ) * (6 / 5 : ℚ))))).isSome

/-- Embeds the `_parallelism_score` closure (`pilot/dreamer.py:335-348`). -/
def parallelismScore (qpus_count : ℕ) (fragments : List (List String)) : ℚ :=
  let num_frags := fragments.length
  if num_frags = 0 then 0
  else if num_frags ≤ qpus_count then (num_frags : ℚ) / (qpus_count : ℚ)
  else 1 + (1 / 2 : ℚ) * ((num_frags : ℚ) - (qpus_count : ℚ)) / (qpus_count : ℚ)

/-- Embeds the `_quality_score` closure (`pilot/dreamer.py:351-361`). -/
def qualityScore (fm : FloatModel) (qpus_count : ℕ) (fragments : List (List String))
    (overhead : ℚ) : ℚ :=
  if overhead ≤ 0 then 0
  else
    let parallelism := parallelismScore qpus_count fragments
    let overhead_penalty := fm.log (max overhead 1)
    if 0 < overhead_penalty then parallelism / overhead_penalty else parallelism

/-- The `best_plan` dict (`pilot/dreamer.py:379-383`). -/
structure BestPlan where
  fragments : List (List String)
  selected : List Edge
  overhead : ℚ
deriving DecidableEq, Repr

/-- The mutable state of the refinement loop of `get_cut_plan`
(`pilot/dreamer.py:363-372`). -/
structure LoopState where
  candidates : List Edge
  selected : List Edge
  disabled : List EKey
  total_overhead : ℚ
  fragments : List (List String)
  best : Option BestPlan
  best_score : ℚ
deriving DecidableEq

/-- Does the overhead cap reject this running product
(`pilot/dreamer.py:394`)? -/
def overCap (max_overhead : Option ℚ) (w : ℚ) : Bool :=
  match max_overhead with
  | none => false
  | some m => m < w

/-- The accept branch of one refinement iteration
(`pilot/dreamer.py:397-425`): disable the cut, extend `selected`,
multiply the overhead, recompute fragments, update the best plan when
the new state is feasible and scores strictly higher, and replenish the
candidate pool with the fresh fragments' MST edges (minus disabled),
re-sorted by cost. -/
def acceptStep (fm : FloatModel) (nodes : List String) (built : List Edge) (qpus_count : ℕ)
    (qpu_capacities : Option (List ℤ)) (st : LoopState) (e : Edge) (rest : List Edge) :
    LoopState :=
  let new_overhead := st.total_overhead * e.overhead
  let disabled' := ekey e :: st.disabled
  let selected' := st.selected ++ [e]
  let fragments' := rebuildFragments nodes built disabled'
  let bp : Option BestPlan × ℚ :=
    if capacityOk qpu_capacities fragments' then
      let score := qualityScore fm qpus_count fragments' new_overhead
      if st.best_score < score then
        (some ⟨fragments', selected', new_overhead⟩, score)
      else (st.best, st.best_score)
    else (st.best, st.best_score)
  let more := ((fragments'.filter (fun c => 1 < c.length)).map
    (fun c => mst c built)).flatten
  let more2 := more.filter (fun x => !(disabledHit disabled' x))
  ⟨pySortByCost (rest ++ more2), selected', disabled', new_overhead, fragments', bp.1, bp.2⟩

/-- One-for-one embedding of the `while candidates:` refinement loop of
`get_cut_plan` (`pilot/dreamer.py:386-430`), with explicit fuel; `none`
means the fuel ran out (the termination theorem shows the fuel chosen by
`planCore` never does).  Each iteration pops the cheapest candidate,
skips it if already disabled or if it would exceed `max_overhead`, and
otherwise accepts via `acceptStep`, stopping early on the
diminishing-returns test. -/
def planLoop (fm : FloatModel) (nodes : List String) (built : List Edge) (qpus_count : ℕ)
    (qpu_capacities : Option (List ℤ)) (max_overhead : Option ℚ) :
    ℕ → LoopState → Option LoopState
  | 0, _ => none
  | fuel + 1, st =>
    match st.candidates with
    | [] => some st
    | e :: rest =>
      if disabledHit st.disabled e then
        planLoop fm nodes built qpus_count qpu_capacities max_overhead fuel
          { st with candidates := rest }
      else if overCap max_overhead (st.total_overhead * e.overhead) then
        planLoop fm nodes built qpus_count qpu_capacities max_overhead fuel
          { st with candidates := rest }
      else
        let st2 := acceptStep fm nodes built qpus_count qpu_capacities st e rest
        if qpus_count * 2 ≤ st2.fragments.length ∧ (100 : ℚ) < st2.total_overhead then some st2
        else planLoop fm nodes built qpus_count qpu_capacities max_overhead fuel st2

/-- The initial candidate pool: per-component MSTs concatenated and
sorted cheapest-first (`pilot/dreamer.py:298-302`). -/
def initCandidates (nodes : List String) (built : List Edge) : List Edge :=
  pySortByCost (((components nodes built).map (fun c => mst c built)).flatten)

/-- The loop state just before the `while`, including the feasibility
check of the cut-free state that seeds `best_plan`
(`pilot/dreamer.py:363-383`). -/
def seedState (fm : FloatModel) (qpus_count : ℕ) (qpu_capacities : Option (List ℤ))
    (nodes : List String) (built : List Edge) : LoopState :=
  let comps := components nodes built
  let st0 : LoopState := ⟨initCandidates nodes built, [], [], 1, comps, none, -1⟩
  if capacityOk qpu_capacities comps then
    let score := qualityScore fm qpus_count comps 1
    if st0.best_score < score then
      { st0 with best := some ⟨comps, [], 1⟩, best_score := score }
    else st0
  else st0

/-- Fuel that dominates the loop's decreasing measure
`(#non-disabled built keys)·(1 + N·B) + #candidates + 1`. -/
def planFuel (nodes : List String) (built : List Edge) : ℕ :=
  (built.length + 1) * (1 + nodes.length * built.length) +
    (initCandidates nodes built).length + 1

/-- A selected cut as reported in `selected_cuts`
(`pilot/dreamer.py:437` and `:462`). -/
structure CutRec where
  u : String
  v : String
  gate : String
  theta : Option ℚ
  overhead : ℚ
deriving DecidableEq, Repr

/-- Projection of an `Edge` to its reported cut record. -/
def toCutRec (e : Edge) : CutRec :=
  ⟨e.u, e.v, e.gate, e.theta, e.overhead⟩

/-- The observable fields of the dict returned by `get_cut_plan`
(`notes` and the two score fields are presentational and omitted). -/
structure CutPlan where
  number_of_cuts : ℕ
  selected_cuts : List CutRec
  total_overhead : ℚ
  fragments : List (List String)
  qpu_assignment : Assignment
deriving DecidableEq, Repr

/-- Python truthiness of the `qpu_capacities` argument
(`if qpu_capacities:` at `pilot/dreamer.py:450`). -/
def capsTruthy : Option (List ℤ) → Bool
  | none => false
  | some l => !l.isEmpty

/-- The round-robin fragment distribution of the no-capacities branch
(`pilot/dreamer.py:453-458`). -/
def roundRobinAssign (qpus_count : ℕ) (fragments : List (List String)) : Assignment :=
  fragments.enum.foldl
    (fun d p => assignDictAppend d (p.1 % qpus_count + 1) p.2) []

/-- The planner after active-filtering: seed, run the loop, and package
either the best plan (`pilot/dreamer.py:444-470`) or, when no state
passed the capacity check, the current state with an empty assignment
(`pilot/dreamer.py:433-442`). -/
def planCore (fm : FloatModel) (nodes : List String) (built : List Edge) (qpus_count : ℕ)
    (qpu_capacities : Option (List ℤ)) (max_overhead : Option ℚ) : CutPlan :=
  let st1 := seedState fm qpus_count qpu_capacities nodes built
  let stF := (planLoop fm nodes built qpus_count qpu_capacities max_overhead
    (planFuel nodes built) st1).getD st1
  match stF.best with
  | none =>
      ⟨stF.selected.length, stF.selected.map toCutRec, stF.total_overhead, stF.fragments, []⟩
  | some bp =>
      let assignment :=
        if capsTruthy qpu_capacities then
          (assignFragmentsByCapacity bp.fragments (qpu_capacities.getD [])).getD []
        else roundRobinAssign qpus_count bp.fragments
      ⟨bp.selected.length, bp.selected.map toCutRec, bp.overhead, bp.fragments, assignment⟩

/-- The trivial "no cuts" plan returned when no active two-qubit edges
remain (`pilot/dreamer.py:283-291`): every qubit a singleton fragment,
all of them on QPU 1. -/
def trivialPlan (nodes : List String) : CutPlan :=
  ⟨0, [], 1, nodes.map (fun n => [n]), [(1, nodes)]⟩

/-- Embeds `get_cut_plan` (`pilot/dreamer.py:266-470`) on the structured
graph input form (`_normalize_input`'s dict branch, which passes
`nodes`/`edges` through unchanged).  `qpus_count ≤ 0` raises
`ValueError`. -/
def get_cut_plan (fm : FloatModel) (nodes : List String) (edge_specs : List EdgeSpec)
    (qpus_count : ℤ) (qpu_capacities : Option (List ℤ)) (max_overhead : Option ℚ)
    (active_only : Bool) : Except String CutPlan :=
  if qpus_count ≤ 0 then Except.error "qpus_count must be >= 1"
  else
    let built := buildEdges fm edge_specs
    if active_only then
      let p := filterActive nodes built
      if p.1.isEmpty then Except.ok (trivialPlan nodes)
      else Except.ok (planCore fm p.1 p.2 qpus_count.toNat qpu_capacities max_overhead)
    else Except.ok (planCore fm nodes built qpus_count.toNat qpu_capacities max_overhead)

/-! ### Verification predicates (proof infrastructure, not part of the
embedding) -/

/-- The forward keys of the built edges, as a finite set. -/
def keysOf (built : List Edge) : Finset EKey :=
  (built.map ekey).toFinset

/-- The decreasing measure of the refinement loop: non-disabled built
keys weighted by the largest possible candidate replenishment, plus the
pending candidates. -/
def loopMeasure (nodes : List String) (built : List Edge) (st : LoopState) : ℕ :=
  (keysOf built \ st.disabled.toFinset).card * (1 + nodes.length * built.length) +
    st.candidates.length + 1

/-- Loop invariant: every pending candidate is a built edge. -/
def candsFromBuilt (built : List Edge) (st : LoopState) : Prop :=
  ∀ e ∈ st.candidates, e ∈ built

/-- Loop invariant for the overhead bookkeeping: the running product and
every best-plan snapshot pair a `selected` list with the product of its
overheads, all bounded by `max 1 M` when a cap `M` is given. -/
def overheadInv (max_overhead : Option ℚ) (st : LoopState) : Prop :=
  (st.total_overhead = (st.selected.map (fun e => e.overhead)).prod ∧
    ∀ M, max_overhead = some M → st.total_overhead ≤ max 1 M) ∧
  ∀ bp, st.best = some bp →
    bp.overhead = (bp.selected.map (fun e => e.overhead)).prod ∧
    ∀ M, max_overhead = some M → bp.overhead ≤ max 1 M

/-- Loop invariant for the fragment bookkeeping: the current fragments
and every best-plan snapshot are node buckets of some DSU state over the
planner's node list. -/
def fragmentsInv (nodes : List String) (st : LoopState) : Prop :=
  (∃ r, st.fragments = groupByRep nodes r) ∧
  ∀ bp, st.best = some bp → ∃ r, bp.fragments = groupByRep nodes r

/-! ## Supporting lemmas -/

/-- Inserting under a key produces only old entries or the new pair. -/
theorem mem_dictInsert {d : Catalogue} {k : String} {v : QuantumResource}
    {q : String × QuantumResource} (h : q ∈ dictInsert d k v) :
    q ∈ d ∨ q = (k, v) := by
  unfold dictInsert at h
  by_cases hk : d.any (fun p => p.1 = k)
  · rw [if_pos hk] at h
    rcases List.mem_map.1 h with ⟨p, hp, hq⟩
    by_cases hpk : p.1 = k
    · right; rw [if_pos hpk] at hq; exact hq.symm
    · left; rw [if_neg hpk] at hq; exact hq ▸ hp
  · rw [if_neg hk] at h
    rcases List.mem_append.1 h with h1 | h1
    · exact Or.inl h1
    · right; simpa using h1

/-- Entries of `installPilotResources` are old entries or prefixed
renamed contributions of the pilot. -/
theorem mem_installPilotResources {pn : String} {rs acc : Catalogue}
    {q : String × QuantumResource} (h : q ∈ installPilotResources pn rs acc) :
    q ∈ acc ∨ ∃ rn r0, (rn, r0) ∈ rs ∧
      q = (pn ++ "_" ++ rn, { r0 with name := pn ++ "_" ++ rn }) := by
  induction rs generalizing acc with
  | nil => exact Or.inl h
  | cons p rest ih =>
    rcases @ih (dictInsert acc (pn ++ "_" ++ p.1) { p.2 with name := pn ++ "_" ++ p.1 }) h with
      h1 | ⟨rn, r0, hm, hq⟩
    · rcases mem_dictInsert h1 with h2 | h2
      · exact Or.inl h2
      · exact Or.inr ⟨p.1, p.2, List.mem_cons_self _ _, h2⟩
    · exact Or.inr ⟨rn, r0, List.mem_cons_of_mem _ hm, hq⟩

/-- Entries of the assembled catalogue are prefixed renamed
contributions of some pilot. -/
theorem mem_assembleCatalogue {pilots : List (String × Catalogue)}
    {q : String × QuantumResource} (h : q ∈ assembleCatalogue pilots) :
    ∃ pn rs rn r0, (pn, rs) ∈ pilots ∧ (rn, r0) ∈ rs ∧
      q = (pn ++ "_" ++ rn, { r0 with name := pn ++ "_" ++ rn }) := by
  suffices H : ∀ (acc : Catalogue),
      q ∈ pilots.foldl (fun acc pr => installPilotResources pr.1 pr.2 acc) acc →
      q ∈ acc ∨ ∃ pn rs rn r0, (pn, rs) ∈ pilots ∧ (rn, r0) ∈ rs ∧
        q = (pn ++ "_" ++ rn, { r0 with name := pn ++ "_" ++ rn }) by
    rcases H [] h with h1 | h1
    · cases h1
    · exact h1
  clear h
  induction pilots with
  | nil => exact fun acc h => Or.inl h
  | cons pr rest ih =>
    intro acc h
    rcases ih (installPilotResources pr.1 pr.2 acc) h with h1 | ⟨pn, rs, rn, r0, hm, hr, hq⟩
    · rcases mem_installPilotResources h1 with h2 | ⟨rn, r0, hr, hq⟩
      · exact Or.inl h2
      · exact Or.inr ⟨pr.1, pr.2, rn, r0, List.mem_cons_self _ _, hr, hq⟩
    · exact Or.inr ⟨pn, rs, rn, r0, List.mem_cons_of_mem _ hm, hr, hq⟩

/-- Inserting a key absent from the dict appends the pair. -/
theorem dictInsert_of_fresh {d : Catalogue} {k : String} {v : QuantumResource}
    (h : ∀ p ∈ d, p.1 ≠ k) : dictInsert d k v = d ++ [(k, v)] := by
  unfold dictInsert
  have : d.any (fun p => p.1 = k) = false := by
    simp only [List.any_eq_false, decide_eq_true_eq]
    exact h
  simp [this]

/-- With globally fresh keys, installing a pilot's resources appends the
prefixed, renamed contributions in order. -/
theorem installPilotResources_eq_append {pn : String} {rs acc : Catalogue}
    (hfresh : ∀ p ∈ rs, ∀ q ∈ acc, q.1 ≠ pn ++ "_" ++ p.1)
    (hnd : (rs.map (fun p => pn ++ "_" ++ p.1)).Nodup) :
    installPilotResources pn rs acc =
      acc ++ rs.map (fun p =>
        (pn ++ "_" ++ p.1, { p.2 with name := pn ++ "_" ++ p.1 })) := by
  induction rs generalizing acc with
  | nil => simp [installPilotResources]
  | cons p rest ih =>
    have hstep : dictInsert acc (pn ++ "_" ++ p.1) { p.2 with name := pn ++ "_" ++ p.1 } =
        acc ++ [(pn ++ "_" ++ p.1, { p.2 with name := pn ++ "_" ++ p.1 })] :=
      dictInsert_of_fresh (fun q hq => hfresh p (List.mem_cons_self _ _) q hq)
    have hrest := @ih (acc ++ [(pn ++ "_" ++ p.1, { p.2 with name := pn ++ "_" ++ p.1 })])
      (by
        intro p2 hp2 q hq
        rcases List.mem_append.1 hq with h1 | h1
        · exact hfresh p2 (List.mem_cons_of_mem _ hp2) q h1
        · simp only [List.mem_singleton] at h1
          subst h1
          simp only [List.map_cons, List.nodup_cons, List.mem_map] at hnd
          intro hc
          exact hnd.1 ⟨p2, hp2, hc.symm⟩)
      (by simpa using hnd.of_cons)
    calc installPilotResources pn (p :: rest) acc
        = installPilotResources pn rest
            (dictInsert acc (pn ++ "_" ++ p.1) { p.2 with name := pn ++ "_" ++ p.1 }) := rfl
      _ = _ := by rw [hstep, hrest, List.append_assoc]; rfl

/-- With globally unique prefixed keys, the assembled catalogue is
exactly the flat list of prefixed renamed contributions. -/
theorem assembleCatalogue_eq_flat {pilots : List (String × Catalogue)}
    (hinj : (assembledKeys pilots).Nodup) :
    assembleCatalogue pilots =
      pilots.flatMap (fun pr => pr.2.map (fun p =>
        (pr.1 ++ "_" ++ p.1, { p.2 with name := pr.1 ++ "_" ++ p.1 }))) := by
  suffices H : ∀ (acc : Catalogue),
      (acc.map Prod.fst ++ assembledKeys pilots).Nodup →
      pilots.foldl (fun acc pr => installPilotResources pr.1 pr.2 acc) acc =
        acc ++ pilots.flatMap (fun pr => pr.2.map (fun p =>
          (pr.1 ++ "_" ++ p.1, { p.2 with name := pr.1 ++ "_" ++ p.1 }))) by
    simpa using H [] (by simpa using hinj)
  clear hinj
  induction pilots with
  | nil => intro acc _; simp [assembleCatalogue]
  | cons pr rest ih =>
    intro acc hacc
    have hkeys : assembledKeys (pr :: rest) =
        pr.2.map (fun p => pr.1 ++ "_" ++ p.1) ++ assembledKeys rest := by
      simp [assembledKeys]
    rw [hkeys] at hacc
    have hstep : installPilotResources pr.1 pr.2 acc =
        acc ++ pr.2.map (fun p =>
          (pr.1 ++ "_" ++ p.1, { p.2 with name := pr.1 ++ "_" ++ p.1 })) := by
      refine installPilotResources_eq_append ?_ ?_
      · intro p hp q hq hc
        have hq1 : q.1 ∈ acc.map Prod.fst := List.mem_map_of_mem _ hq
        have hp1 : pr.1 ++ "_" ++ p.1 ∈ pr.2.map (fun p => pr.1 ++ "_" ++ p.1) ++
            assembledKeys rest :=
          List.mem_append_left _ (List.mem_map_of_mem _ hp)
        exact (List.disjoint_of_nodup_append hacc) hq1 (hc ▸ hp1)
      · exact ((List.nodup_append.1 (hacc.of_append_right)).1)
    have hacc2 : ((acc ++ pr.2.map (fun (p : String × QuantumResource) =>
        (pr.1 ++ "_" ++ p.1, { p.2 with name := pr.1 ++ "_" ++ p.1 }))).map Prod.fst ++
          assembledKeys rest).Nodup := by
      simpa [List.map_map, Function.comp, List.append_assoc] using hacc
    have hrest := ih (acc ++ pr.2.map (fun (p : String × QuantumResource) =>
      (pr.1 ++ "_" ++ p.1, { p.2 with name := pr.1 ++ "_" ++ p.1 }))) hacc2
    calc (pr :: rest).foldl (fun acc pr => installPilotResources pr.1 pr.2 acc) acc
        = rest.foldl (fun acc pr => installPilotResources pr.1 pr.2 acc)
            (installPilotResources pr.1 pr.2 acc) := rfl
      _ = _ := by
          rw [hstep, hrest]
          simp [List.append_assoc]

/-- String append is right-cancellative (used for distinctness of
pilot-prefixed keys). -/
theorem string_append_cancel_right {s t u : String} (h : s ++ u = t ++ u) : s = t := by
  have hd := congrArg String.data h
  simp only [String.data_append] at hd
  have h2 := List.append_cancel_right hd
  cases s; cases t
  exact congrArg String.mk h2

/-! ## Claim theorems -/

/-- **C1.** The claim states that every resource returned by
`Q_DREAMER.get_best_resource` satisfies the suitability conditions
(`qubit-count ≥ task.num-qubits`, task gates ⊆ resource gates under
normalization) and that `none` is returned when no resource is
suitable.  The source performs no suitability filtering: with the
default least-error-rate strategy and a catalogue whose only resource
has 1 qubit and gate set `{x}`, the selector returns that resource even
for a task needing 2 qubits and gates `{h, cx}` — contradicting the
function's own docstring ("None if no suitable resource found") and
spec scenario S4.  This theorem evaluates the code at that failing
input. -/
theorem C1_selector_ignores_suitability :
    (QDreamer.get_best_resource
        ⟨[("r1", ⟨"r1", 1, ["x"], 1/100, 0, [], none⟩)],
          DreamerStrategyType.least_error_rate, ⟨0⟩⟩).1 =
      Except.ok ⟨"r1", 1, ["x"], 1/100, 0, [], none⟩ ∧
    suitableSpec ⟨"r1", 1, ["x"], 1/100, 0, [], none⟩ 2 ["h", "cx"] = false := by
  constructor
  · with_unfolding_all rfl
  · with_unfolding_all rfl

/-- **C2.** The claim states that the classical wrapper `task_func`
records `FAILED` with `str(e)`, writes exactly one metrics row, and
**re-raises** the exception so the caller's future reports the failure.
The source records `FAILED`/`str(e)` and writes one row, but its
`except` clause has no `raise`: the closure falls through to
`return result` with `result = None`, so the future completes normally
with `None` (the repository's own `test_bugfixes.py` demands the
missing `raise` and `finally:`).  This theorem evaluates the wrapper on
a user function raising `boom`. -/
theorem C2_task_func_swallows_exception :
    task_func ℕ (Except.error "boom") =
      { status := "FAILED", error_msg := some "boom", metrics_rows := 1,
        future := FutureOutcome.value none } ∧
    (task_func ℕ (Except.error "boom")).future ≠ FutureOutcome.raised "boom" := by
  constructor
  · rfl
  · intro h
    simp [task_func] at h

/-- **C3.** The claim states that the worker shim derives the executor
family from the resource name by substring match (default `qiskit`) and
invokes the executor with the task's `circuits` sequence.  The family
derivation is as claimed, but the source passes `quantum_task.circuit`
— an attribute `QuantumTask` does not define (it defines only
`circuits`) — so execution fails with `AttributeError` instead of
invoking the executor.  This theorem evaluates the shim at such a
failing input. -/
theorem C3_shim_accesses_missing_circuit_attribute :
    getExecutorTypeFromResource "pilot-1_Pennylane_default" = "pennylane" ∧
    getExecutorTypeFromResource "custom_backend" = "qiskit" ∧
    quantumTaskAttrs.contains "circuits" = true ∧
    quantumTaskAttrs.contains "circuit" = false ∧
    executeCircuit ℕ ⟨[7]⟩ ⟨"pilot-1_qiskit_sim", 5, ["h", "cx"], 0, 0, [], none⟩ =
      Except.error "AttributeError: QuantumTask object has no attribute circuit" := by
  refine ⟨?_, ?_, ?_, ?_, ?_⟩ <;> with_unfolding_all rfl

/-- **C9 (counterexample).** The claim states that installing a
generated resource into the combined catalogue leaves the resource's
`name` field unchanged.  `initialize_dreamer` executes
`resource.name = prefixed_name`: for pilot `P1` and a generated
resource named `r`, the installed record's name is `P1_r ≠ r`. -/
theorem C9_counterexample_install_renames :
    (assembleCatalogue [("P1", [("r", ⟨"r", 5, ["h"], 0, 0, [], none⟩)])]).map
        (fun p => p.2.name) = ["P1_r"] ∧
    ("P1_r" : String) ≠ "r" := by
  constructor
  · with_unfolding_all rfl
  · decide

/-- **C9 (amended).** Catalogue assembly updates exactly the `name`
field of each installed resource — to its pilot-prefixed catalogue key —
and preserves every other field; each catalogue entry is a contribution
of some pilot with only its name rewritten. -/
theorem C9_install_updates_only_name {pilots : List (String × Catalogue)}
    {q : String × QuantumResource} (h : q ∈ assembleCatalogue pilots) :
    ∃ pn rs rn r0, (pn, rs) ∈ pilots ∧ (rn, r0) ∈ rs ∧
      q.1 = pn ++ "_" ++ rn ∧ q.2.name = pn ++ "_" ++ rn ∧
      q.2.qubit_count = r0.qubit_count ∧ q.2.gateset = r0.gateset ∧
      q.2.error_rate = r0.error_rate ∧ q.2.noise_level = r0.noise_level ∧
      q.2.quantum_config = r0.quantum_config ∧ q.2.pilot_name = r0.pilot_name := by
  rcases mem_assembleCatalogue h with ⟨pn, rs, rn, r0, hm, hr, hq⟩
  subst hq
  exact ⟨pn, rs, rn, r0, hm, hr, rfl, rfl, rfl, rfl, rfl, rfl, rfl, rfl⟩

/-- Witness for C9: the amended statement applied at a concrete
catalogue. -/
theorem C9_install_updates_only_name_witness :
    (("P1_r", (⟨"P1_r", 5, ["h"], 0, 0, [], none⟩ : QuantumResource)) ∈
      assembleCatalogue [("P1", [("r", ⟨"r", 5, ["h"], 0, 0, [], none⟩)])]) ∧
    (∃ pn rs rn r0,
      (pn, rs) ∈ [("P1", [("r", (⟨"r", 5, ["h"], 0, 0, [], none⟩ : QuantumResource))])] ∧
      (rn, r0) ∈ rs ∧
      ("P1_r" : String) = pn ++ "_" ++ rn ∧
      ((⟨"P1_r", 5, ["h"], 0, 0, [], none⟩ : QuantumResource)).name = pn ++ "_" ++ rn ∧
      (5 : ℕ) = r0.qubit_count ∧ (["h"] : List String) = r0.gateset ∧
      (0 : ℚ) = r0.error_rate ∧ (0 : ℚ) = r0.noise_level ∧
      ([] : List (String × String)) = r0.quantum_config ∧
      (none : Option String) = r0.pilot_name) :=
  ⟨by with_unfolding_all decide,
   @C9_install_updates_only_name
     [("P1", [("r", ⟨"r", 5, ["h"], 0, 0, [], none⟩)])]
     ("P1_r", ⟨"P1_r", 5, ["h"], 0, 0, [], none⟩)
     (by with_unfolding_all decide)⟩

/-- **C4 (counterexample).** The claim states that after catalogue
assembly, the contributions of any two pilots `P1 ≠ P2` with the same
local resource name `r` both survive under keys `P1_r` and `P2_r`, with
no overwriting.  Because keys are formed by plain `_`-concatenation,
the key space is not injective across pilots: with pilots `a`, `a_x`
and `b` contributing local names `x_y`, `y` and `x_y`, the keys
`a_x_y` collide and pilot `a`'s entry (qubit count 1) is overwritten by
pilot `a_x`'s (qubit count 3), so the catalogue no longer contains both
entries for the pair `P1 = a`, `P2 = b`, `r = x_y`. -/
theorem C4_counterexample_prefixed_key_collision :
    (assembleCatalogue
        [("a", [("x_y", ⟨"x_y", 1, [], 0, 0, [], none⟩)]),
         ("a_x", [("y", ⟨"y", 3, [], 0, 0, [], none⟩)]),
         ("b", [("x_y", ⟨"x_y", 2, [], 0, 0, [], none⟩)])]).map
        (fun p => (p.1, p.2.qubit_count)) =
      [("a_x_y", 3), ("b_x_y", 2)] := by
  with_unfolding_all rfl

/-- **C4 (amended).** Provided the pilot-prefixed keys of all
contributions are pairwise distinct (which pilot-name prefixing alone
does not guarantee when names contain underscores), the contributions
of any two distinct pilots with the same local name `r` both appear in
the final catalogue, under the distinct keys `P1_r` and `P2_r`, neither
overwriting the other. -/
theorem C4_distinct_pilot_entries_survive {pilots : List (String × Catalogue)}
    {P1 P2 r : String} {rs1 rs2 : Catalogue} {a b : QuantumResource}
    (h1 : (P1, rs1) ∈ pilots) (h2 : (P2, rs2) ∈ pilots) (hP : P1 ≠ P2)
    (ha : (r, a) ∈ rs1) (hb : (r, b) ∈ rs2)
    (hinj : (assembledKeys pilots).Nodup) :
    (P1 ++ "_" ++ r, { a with name := P1 ++ "_" ++ r }) ∈ assembleCatalogue pilots ∧
    (P2 ++ "_" ++ r, { b with name := P2 ++ "_" ++ r }) ∈ assembleCatalogue pilots ∧
    P1 ++ "_" ++ r ≠ P2 ++ "_" ++ r := by
  rw [assembleCatalogue_eq_flat hinj]
  refine ⟨?_, ?_, ?_⟩
  · exact List.mem_flatMap.2 ⟨(P1, rs1), h1, List.mem_map.2 ⟨(r, a), ha, rfl⟩⟩
  · exact List.mem_flatMap.2 ⟨(P2, rs2), h2, List.mem_map.2 ⟨(r, b), hb, rfl⟩⟩
  · intro hc
    exact hP (string_append_cancel_right (string_append_cancel_right
      (by simpa [String.append_assoc] using hc)))

/-- Witness for C4: the amended statement applied to two pilots `P1`,
`P2` both contributing a resource locally named `r`. -/
theorem C4_distinct_pilot_entries_survive_witness :
    ((("P1", [("r", (⟨"r", 1, [], 0, 0, [], none⟩ : QuantumResource))]) ∈
        ([("P1", [("r", ⟨"r", 1, [], 0, 0, [], none⟩)]),
          ("P2", [("r", ⟨"r", 2, [], 0, 0, [], none⟩)])] : List (String × Catalogue))) ∧
      (("P2", [("r", (⟨"r", 2, [], 0, 0, [], none⟩ : QuantumResource))]) ∈
        ([("P1", [("r", ⟨"r", 1, [], 0, 0, [], none⟩)]),
          ("P2", [("r", ⟨"r", 2, [], 0, 0, [], none⟩)])] : List (String × Catalogue))) ∧
      ("P1" : String) ≠ "P2" ∧
      (assembledKeys [("P1", [("r", ⟨"r", 1, [], 0, 0, [], none⟩)]),
        ("P2", [("r", ⟨"r", 2, [], 0, 0, [], none⟩)])]).Nodup) ∧
    (("P1" ++ "_" ++ "r", (⟨"P1" ++ "_" ++ "r", 1, [], 0, 0, [], none⟩ : QuantumResource)) ∈
      assembleCatalogue [("P1", [("r", ⟨"r", 1, [], 0, 0, [], none⟩)]),
        ("P2", [("r", ⟨"r", 2, [], 0, 0, [], none⟩)])] ∧
      ("P2" ++ "_" ++ "r", (⟨"P2" ++ "_" ++ "r", 2, [], 0, 0, [], none⟩ : QuantumResource)) ∈
      assembleCatalogue [("P1", [("r", ⟨"r", 1, [], 0, 0, [], none⟩)]),
        ("P2", [("r", ⟨"r", 2, [], 0, 0, [], none⟩)])] ∧
      "P1" ++ "_" ++ "r" ≠ "P2" ++ "_" ++ "r") :=
  ⟨⟨by with_unfolding_all decide, by with_unfolding_all decide, by decide,
    by with_unfolding_all decide⟩,
   @C4_distinct_pilot_entries_survive
     [("P1", [("r", ⟨"r", 1, [], 0, 0, [], none⟩)]),
      ("P2", [("r", ⟨"r", 2, [], 0, 0, [], none⟩)])]
     "P1" "P2" "r"
     [("r", ⟨"r", 1, [], 0, 0, [], none⟩)] [("r", ⟨"r", 2, [], 0, 0, [], none⟩)]
     ⟨"r", 1, [], 0, 0, [], none⟩ ⟨"r", 2, [], 0, 0, [], none⟩
     (by with_unfolding_all decide) (by with_unfolding_all decide) (by decide)
     (by with_unfolding_all decide) (by with_unfolding_all decide)
     (by with_unfolding_all decide)⟩

/-- A spec list with no cuttable gate builds no edges. -/
theorem buildEdges_eq_nil {fm : FloatModel} {specs : List EdgeSpec}
    (hnc : ∀ e ∈ specs, gateOverhead fm e.gate e.theta = none) :
    buildEdges fm specs = [] := by
  unfold buildEdges
  refine List.filterMap_eq_nil_iff.2 ?_
  intro e he
  rw [hnc e he]
  rfl

/-- With no built edges every node has degree 0, so no node is active. -/
theorem activeNodes_nil (nodes : List String) : activeNodes nodes [] = [] := by
  simp [activeNodes, degreeIn]

/-- **C7.** If the circuit contains no cuttable two-qubit gate (every
edge's gate falls outside the overhead tables, so every node has degree
0 after `_build_edges`), `get_cut_plan` with the active-only filter
returns the trivial plan: zero cuts, empty `selected_cuts`,
`total_overhead = 1`, one singleton fragment per qubit, and QPU 1
assigned all qubits. -/
theorem C7_trivial_plan_when_no_cuttable_gates {fm : FloatModel} {nodes : List String}
    {specs : List EdgeSpec} {qpus_count : ℤ} {caps : Option (List ℤ)} {maxOv : Option ℚ}
    (hq : 1 ≤ qpus_count)
    (hnc : ∀ e ∈ specs, gateOverhead fm e.gate e.theta = none) :
    get_cut_plan fm nodes specs qpus_count caps maxOv true =
      Except.ok ⟨0, [], 1, nodes.map (fun n => [n]), [(1, nodes)]⟩ := by
  unfold get_cut_plan
  rw [if_neg (by omega)]
  rw [buildEdges_eq_nil hnc]
  simp only [if_pos]
  have hfa : filterActive nodes [] = ([], []) := by
    simp [filterActive, activeNodes_nil]
  rw [hfa]
  simp [trivialPlan]

/-- Witness for C7 at a concrete single-qubit-gate circuit. -/
theorem C7_trivial_plan_when_no_cuttable_gates_witness :
    ((1 : ℤ) ≤ 1 ∧
      gateOverhead (⟨fun _ => 9, fun _ _ => 1, fun _ => 0⟩ : FloatModel) "h" none = none) ∧
    get_cut_plan (⟨fun _ => 9, fun _ _ => 1, fun _ => 0⟩ : FloatModel) ["q0", "q1"]
        [⟨"q0", "q1", "h", none⟩] 1 none none true =
      Except.ok ⟨0, [], 1, [["q0"], ["q1"]], [(1, ["q0", "q1"])]⟩ :=
  ⟨⟨by decide, by with_unfolding_all rfl⟩,
   @C7_trivial_plan_when_no_cuttable_gates ⟨fun _ => 9, fun _ _ => 1, fun _ => 0⟩
     ["q0", "q1"] [⟨"q0", "q1", "h", none⟩] 1 none none (by decide)
     (by with_unfolding_all decide)⟩

/-! ### Overhead bookkeeping (claim C5) -/

/-- `acceptStep` appends the accepted edge to `selected`. -/
theorem acceptStep_selected (fm : FloatModel) (nodes : List String) (built : List Edge)
    (q : ℕ) (caps : Option (List ℤ)) (st : LoopState) (e : Edge) (rest : List Edge) :
    (acceptStep fm nodes built q caps st e rest).selected = st.selected ++ [e] := rfl

/-- `acceptStep` multiplies the running overhead by the cut's. -/
theorem acceptStep_total (fm : FloatModel) (nodes : List String) (built : List Edge)
    (q : ℕ) (caps : Option (List ℤ)) (st : LoopState) (e : Edge) (rest : List Edge) :
    (acceptStep fm nodes built q caps st e rest).total_overhead =
      st.total_overhead * e.overhead := rfl

/-- `acceptStep` disables the accepted edge's forward key. -/
theorem acceptStep_disabled (fm : FloatModel) (nodes : List String) (built : List Edge)
    (q : ℕ) (caps : Option (List ℤ)) (st : LoopState) (e : Edge) (rest : List Edge) :
    (acceptStep fm nodes built q caps st e rest).disabled = ekey e :: st.disabled := rfl

/-- `acceptStep` recomputes the fragments from the enlarged disabled
set. -/
theorem acceptStep_fragments (fm : FloatModel) (nodes : List String) (built : List Edge)
    (q : ℕ) (caps : Option (List ℤ)) (st : LoopState) (e : Edge) (rest : List Edge) :
    (acceptStep fm nodes built q caps st e rest).fragments =
      rebuildFragments nodes built (ekey e :: st.disabled) := rfl

/-- `acceptStep` either keeps the previous best plan or snapshots the
new state. -/
theorem acceptStep_best_cases (fm : FloatModel) (nodes : List String) (built : List Edge)
    (q : ℕ) (caps : Option (List ℤ)) (st : LoopState) (e : Edge) (rest : List Edge) :
    (acceptStep fm nodes built q caps st e rest).best = st.best ∨
    (acceptStep fm nodes built q caps st e rest).best =
      some ⟨rebuildFragments nodes built (ekey e :: st.disabled), st.selected ++ [e],
        st.total_overhead * e.overhead⟩ := by
  unfold acceptStep
  dsimp only
  split_ifs <;> simp

/-- A failed overhead-cap test bounds the product by the cap. -/
theorem le_of_overCap_false {maxOv : Option ℚ} {w : ℚ} {M : ℚ}
    (h : ¬ overCap maxOv w = true) (hM : maxOv = some M) : w ≤ M := by
  subst hM
  unfold overCap at h
  simpa using h

/-- The seed state satisfies the overhead invariant. -/
theorem seedState_overheadInv (fm : FloatModel) (q : ℕ) (caps : Option (List ℤ))
    (nodes : List String) (built : List Edge) (maxOv : Option ℚ) :
    overheadInv maxOv (seedState fm q caps nodes built) := by
  unfold seedState overheadInv
  dsimp only
  split_ifs <;> refine ⟨⟨by simp, fun M _ => by simp⟩, ?_⟩ <;> intro bp hbp
  · rw [Option.some.inj hbp.symm]
    exact ⟨by simp, fun M _ => by simp⟩
  · cases hbp
  · cases hbp

/-- The accepted state satisfies the overhead invariant when the popped
edge passed the cap test. -/
theorem acceptStep_overheadInv (fm : FloatModel) (nodes : List String) (built : List Edge)
    (q : ℕ) (caps : Option (List ℤ)) (maxOv : Option ℚ) (st : LoopState) (e : Edge)
    (rest : List Edge)
    (hcap : ¬ overCap maxOv (st.total_overhead * e.overhead) = true)
    (hinv : overheadInv maxOv st) :
    overheadInv maxOv (acceptStep fm nodes built q caps st e rest) := by
  have hprod : (acceptStep fm nodes built q caps st e rest).total_overhead =
      (((acceptStep fm nodes built q caps st e rest).selected).map
        (fun e => e.overhead)).prod := by
    rw [acceptStep_selected, acceptStep_total, List.map_append, List.prod_append]
    simp [hinv.1.1]
  have hbound : ∀ M, maxOv = some M →
      (acceptStep fm nodes built q caps st e rest).total_overhead ≤ max 1 M := by
    intro M hM
    rw [acceptStep_total]
    exact (le_of_overCap_false hcap hM).trans (le_max_right 1 M)
  refine ⟨⟨hprod, hbound⟩, ?_⟩
  intro bp hbp
  rcases acceptStep_best_cases fm nodes built q caps st e rest with hb | hb
  · rw [hb] at hbp
    exact hinv.2 bp hbp
  · rw [hb] at hbp
    rw [Option.some.inj hbp.symm]
    constructor
    · simp [List.map_append, List.prod_append, hinv.1.1]
    · intro M hM
      exact (le_of_overCap_false hcap hM).trans (le_max_right 1 M)

/-- The refinement loop preserves the overhead invariant. -/
theorem planLoop_overheadInv {fm : FloatModel} {nodes : List String} {built : List Edge}
    {q : ℕ} {caps : Option (List ℤ)} {maxOv : Option ℚ} :
    ∀ (fuel : ℕ) (st st' : LoopState),
      planLoop fm nodes built q caps maxOv fuel st = some st' →
      overheadInv maxOv st → overheadInv maxOv st' := by
  intro fuel
  induction fuel with
  | zero =>
    intro st st' h
    simp [planLoop] at h
  | succ fuel ih =>
    intro st st' h hinv
    rw [planLoop] at h
    rcases hc : st.candidates with _ | ⟨e, rest⟩ <;> rw [hc] at h <;> dsimp only at h
    · exact (Option.some.inj h) ▸ hinv
    · by_cases h1 : disabledHit st.disabled e = true
      · rw [if_pos h1] at h
        exact ih _ _ h hinv
      · rw [if_neg h1] at h
        by_cases h2 : overCap maxOv (st.total_overhead * e.overhead) = true
        · rw [if_pos h2] at h
          exact ih _ _ h hinv
        · rw [if_neg h2] at h
          have hinv2 := acceptStep_overheadInv fm nodes built q caps maxOv st e rest h2 hinv
          by_cases h3 : q * 2 ≤ (acceptStep fm nodes built q caps st e rest).fragments.length ∧
              (100 : ℚ) < (acceptStep fm nodes built q caps st e rest).total_overhead
          · rw [if_pos h3] at h
            exact (Option.some.inj h) ▸ hinv2
          · rw [if_neg h3] at h
            exact ih _ _ h hinv2

/-- The state packaged by `planCore` satisfies the overhead invariant. -/
theorem planCore_state_overheadInv (fm : FloatModel) (nodes : List String)
    (built : List Edge) (q : ℕ) (caps : Option (List ℤ)) (maxOv : Option ℚ) :
    overheadInv maxOv ((planLoop fm nodes built q caps maxOv (planFuel nodes built)
      (seedState fm q caps nodes built)).getD (seedState fm q caps nodes built)) := by
  cases hres : planLoop fm nodes built q caps maxOv (planFuel nodes built)
      (seedState fm q caps nodes built) with
  | none => exact seedState_overheadInv fm q caps nodes built maxOv
  | some s =>
    exact planLoop_overheadInv _ _ _ hres (seedState_overheadInv fm q caps nodes built maxOv)

/-- The plan returned by `planCore` obeys the product law and the
(weakened) overhead cap. -/
theorem planCore_overhead (fm : FloatModel) (nodes : List String) (built : List Edge)
    (q : ℕ) (caps : Option (List ℤ)) (maxOv : Option ℚ) :
    (planCore fm nodes built q caps maxOv).total_overhead =
      ((planCore fm nodes built q caps maxOv).selected_cuts.map
        (fun c => c.overhead)).prod ∧
    ∀ M, maxOv = some M → (planCore fm nodes built q caps maxOv).total_overhead ≤ max 1 M := by
  have hinv := planCore_state_overheadInv fm nodes built q caps maxOv
  unfold planCore
  dsimp only
  cases hb : ((planLoop fm nodes built q caps maxOv (planFuel nodes built)
      (seedState fm q caps nodes built)).getD (seedState fm q caps nodes built)).best with
  | none =>
    dsimp only
    exact ⟨by rw [List.map_map]; exact hinv.1.1, hinv.1.2⟩
  | some bp =>
    dsimp only
    have hbp := hinv.2 bp hb
    exact ⟨by rw [List.map_map]; exact hbp.1, hbp.2⟩

/-- **C5 (counterexample).** The claim states that with
`max_overhead = M` the returned `total_overhead` is `≤ M`.  For `M < 1`
this fails: the cut-free state has overhead `1`, every candidate cut is
rejected by the cap, and the planner returns a plan with
`total_overhead = 1 > M` (here a single-`cx` circuit with `M = 1/2`). -/
theorem C5_counterexample_cap_below_one :
    get_cut_plan (⟨fun _ => 9, fun _ _ => 1, fun _ => 0⟩ : FloatModel) ["q0", "q1"]
        [⟨"q0", "q1", "cx", none⟩] 1 none (some (1 / 2)) true =
      Except.ok ⟨0, [], 1, [["q0", "q1"]], [(1, ["q0", "q1"])]⟩ ∧
    ¬ ((1 : ℚ) ≤ 1 / 2) := by
  constructor
  · with_unfolding_all rfl
  · with_unfolding_all decide

/-- **C5 (amended).** Every plan returned by `get_cut_plan` satisfies
the overhead product law — `total_overhead` is exactly the product of
the per-cut overheads of `selected_cuts` — and, when the caller supplies
`max_overhead = M`, `total_overhead ≤ max 1 M`: the cut-free product is
`1` and no accepted cut ever pushes the running product above `M`. -/
theorem C5_overhead_product_and_bounded {fm : FloatModel} {nodes : List String}
    {specs : List EdgeSpec} {q : ℤ} {caps : Option (List ℤ)} {maxOv : Option ℚ}
    {ao : Bool} {plan : CutPlan}
    (h : get_cut_plan fm nodes specs q caps maxOv ao = Except.ok plan) :
    plan.total_overhead = (plan.selected_cuts.map (fun c => c.overhead)).prod ∧
    ∀ M, maxOv = some M → plan.total_overhead ≤ max 1 M := by
  unfold get_cut_plan at h
  by_cases hq : q ≤ 0
  · rw [if_pos hq] at h
    cases h
  · rw [if_neg hq] at h
    dsimp only at h
    cases ao with
    | false =>
      rw [if_neg (by simp)] at h
      have hp := Except.ok.inj h
      rw [← hp]
      exact planCore_overhead fm nodes (buildEdges fm specs) q.toNat caps maxOv
    | true =>
      rw [if_pos rfl] at h
      by_cases he : (filterActive nodes (buildEdges fm specs)).1.isEmpty = true
      · rw [if_pos he] at h
        have hp := Except.ok.inj h
        rw [← hp]
        exact ⟨by simp [trivialPlan], fun M _ => by simp [trivialPlan]⟩
      · rw [if_neg he] at h
        have hp := Except.ok.inj h
        rw [← hp]
        exact planCore_overhead fm (filterActive nodes (buildEdges fm specs)).1
          (filterActive nodes (buildEdges fm specs)).2 q.toNat caps maxOv

/-- Witness for C5: the amended statement applied to a three-qubit chain
with capacities `[2, 2]` and cap `M = 100`. -/
theorem C5_overhead_product_and_bounded_witness :
    get_cut_plan (⟨fun _ => 9, fun _ _ => 1, fun _ => 0⟩ : FloatModel) ["q0", "q1", "q2"]
        [⟨"q0", "q1", "cx", none⟩, ⟨"q1", "q2", "cz", none⟩] 2 (some [2, 2]) (some 100) true =
      Except.ok ⟨2, [⟨"q0", "q1", "cx", none, 9⟩, ⟨"q1", "q2", "cz", none, 9⟩], 81,
        [["q0"], ["q1"], ["q2"]], [(1, ["q0", "q1"]), (2, ["q2"])]⟩ ∧
    (81 : ℚ) = ([⟨"q0", "q1", "cx", none, 9⟩,
      (⟨"q1", "q2", "cz", none, 9⟩ : CutRec)].map (fun c => c.overhead)).prod ∧
    (81 : ℚ) ≤ max 1 100 :=
  ⟨by with_unfolding_all rfl,
   (@C5_overhead_product_and_bounded ⟨fun _ => 9, fun _ _ => 1, fun _ => 0⟩
     ["q0", "q1", "q2"] [⟨"q0", "q1", "cx", none⟩, ⟨"q1", "q2", "cz", none⟩] 2
     (some [2, 2]) (some 100) true
     ⟨2, [⟨"q0", "q1", "cx", none, 9⟩, ⟨"q1", "q2", "cz", none, 9⟩], 81,
       [["q0"], ["q1"], ["q2"]], [(1, ["q0", "q1"]), (2, ["q2"])]⟩
     (by with_unfolding_all rfl)).1,
   (@C5_overhead_product_and_bounded ⟨fun _ => 9, fun _ _ => 1, fun _ => 0⟩
     ["q0", "q1", "q2"] [⟨"q0", "q1", "cx", none⟩, ⟨"q1", "q2", "cz", none⟩] 2
     (some [2, 2]) (some 100) true
     ⟨2, [⟨"q0", "q1", "cx", none, 9⟩, ⟨"q1", "q2", "cz", none, 9⟩], 81,
       [["q0"], ["q1"], ["q2"]], [(1, ["q0", "q1"]), (2, ["q2"])]⟩
     (by with_unfolding_all rfl)).2 100 rfl⟩

/-! ### Fragment partitioning (claim C6) -/

/-- Membership in the dedup worker: kept iff present and not yet
seen. -/
theorem mem_firstDedupGo {a : String} :
    ∀ {l seen : List String}, a ∈ firstDedupGo l seen ↔ a ∈ l ∧ a ∉ seen := by
  intro l
  induction l with
  | nil => intro seen; simp [firstDedupGo]
  | cons b l ih =>
    intro seen
    unfold firstDedupGo
    by_cases hb : seen.contains b
    · rw [if_pos hb]
      replace hb : b ∈ seen := List.mem_of_elem_eq_true hb
      constructor
      · intro h
        rcases ih.1 h with ⟨h1, h2⟩
        exact ⟨List.mem_cons_of_mem _ h1, h2⟩
      · rintro ⟨h1, h2⟩
        rcases List.mem_cons.1 h1 with h3 | h3
        · exact absurd (h3 ▸ hb) h2
        · exact ih.2 ⟨h3, h2⟩
    · rw [if_neg hb]
      replace hb : b ∉ seen := fun hm => hb (List.elem_eq_true_of_mem hm)
      constructor
      · intro h
        rcases List.mem_cons.1 h with h3 | h3
        · exact ⟨h3 ▸ List.mem_cons_self b l, h3 ▸ hb⟩
        · rcases ih.1 h3 with ⟨h1, h2⟩
          simp only [List.mem_cons, not_or] at h2
          exact ⟨List.mem_cons_of_mem _ h1, h2.2⟩
      · rintro ⟨h1, h2⟩
        rcases List.mem_cons.1 h1 with h3 | h3
        · exact h3 ▸ List.mem_cons_self _ _
        · by_cases hab : a = b
          · exact hab ▸ List.mem_cons_self _ _
          · exact List.mem_cons_of_mem _ (ih.2 ⟨h3, by simp [hab, h2]⟩)

/-- Membership survives first-occurrence deduplication. -/
theorem mem_firstDedup {a : String} {l : List String} :
    a ∈ firstDedup l ↔ a ∈ l := by
  unfold firstDedup
  rw [mem_firstDedupGo]
  simp

/-- The dedup worker has no duplicates. -/
theorem firstDedupGo_nodup : ∀ (l seen : List String), (firstDedupGo l seen).Nodup := by
  intro l
  induction l with
  | nil => intro seen; simp [firstDedupGo]
  | cons b l ih =>
    intro seen
    unfold firstDedupGo
    by_cases hb : seen.contains b
    · rw [if_pos hb]; exact ih seen
    · rw [if_neg hb]
      refine List.nodup_cons.2 ⟨?_, ih (b :: seen)⟩
      intro hmem
      exact (mem_firstDedupGo.1 hmem).2 (List.mem_cons_self b seen)

/-- `firstDedup` has no duplicates. -/
theorem firstDedup_nodup (l : List String) : (firstDedup l).Nodup :=
  firstDedupGo_nodup l []

/-- Concatenating the fibers of `f` over a duplicate-free covering root
list permutes the original list. -/
theorem fiber_flatten_perm (f : String → String) :
    ∀ (roots l : List String), roots.Nodup → (∀ x ∈ l, f x ∈ roots) →
      ((roots.map (fun root => l.filter (fun n => f n = root))).flatten).Perm l := by
  intro roots
  induction roots with
  | nil =>
    intro l _ hcov
    cases l with
    | nil => simp
    | cons x xs => exact absurd (hcov x (List.mem_cons_self x xs)) (List.not_mem_nil _)
  | cons r rs ih =>
    intro l hnd hcov
    simp only [List.map_cons, List.flatten_cons]
    have hfilter : ∀ r' ∈ rs,
        (l.filter (fun n => !(decide (f n = r)))).filter (fun n => f n = r') =
          l.filter (fun n => f n = r') := by
      intro r' hr'
      have hne : r' ≠ r := by
        intro hc
        exact (List.nodup_cons.1 hnd).1 (hc ▸ hr')
      rw [List.filter_filter]
      refine List.filter_congr ?_
      intro a _
      by_cases hfa : f a = r'
      · simp [hfa, hne]
      · simp [hfa]
    have hcov2 : ∀ x ∈ l.filter (fun n => !(decide (f n = r))), f x ∈ rs := by
      intro x hx
      rcases List.mem_filter.1 hx with ⟨hx1, hx2⟩
      rcases List.mem_cons.1 (hcov x hx1) with h3 | h3
      · simp [h3] at hx2
      · exact h3
    have hperm2 := ih (l.filter (fun n => !(decide (f n = r)))) (List.nodup_cons.1 hnd).2 hcov2
    have hmaps : rs.map (fun root => l.filter (fun n => f n = root)) =
        rs.map (fun root =>
          (l.filter (fun n => !(decide (f n = r)))).filter (fun n => f n = root)) := by
      refine List.map_congr_left ?_
      intro r' hr'
      exact (hfilter r' hr').symm
    rw [hmaps]
    exact List.Perm.trans (List.Perm.append_left _ hperm2) (List.filter_append_perm _ l)

/-- The buckets of `groupByRep` are pairwise disjoint. -/
theorem groupByRep_pairwise (nodes : List String) (r : Rep) :
    (groupByRep nodes r).Pairwise (fun g1 g2 => ∀ x ∈ g1, x ∉ g2) := by
  unfold groupByRep
  refine List.Pairwise.map _ (fun a b hab => ?_) (firstDedup_nodup (nodes.map (repFind r)))
  intro x hx1 hx2
  have h1 : repFind r x = a := by simpa using (List.mem_filter.1 hx1).2
  have h2 : repFind r x = b := by simpa using (List.mem_filter.1 hx2).2
  exact hab (h1 ▸ h2)

/-- The buckets of `groupByRep` concatenate to a permutation of the
node list. -/
theorem groupByRep_flatten_perm (nodes : List String) (r : Rep) :
    (groupByRep nodes r).flatten.Perm nodes := by
  unfold groupByRep
  refine fiber_flatten_perm (fun n => repFind r n) _ nodes (firstDedup_nodup _) ?_
  intro x hx
  exact mem_firstDedup.2 (List.mem_map_of_mem _ hx)

/-- The accepted state keeps fragments as DSU buckets. -/
theorem acceptStep_fragmentsInv (fm : FloatModel) (nodes : List String) (built : List Edge)
    (q : ℕ) (caps : Option (List ℤ)) (st : LoopState) (e : Edge) (rest : List Edge)
    (hinv : fragmentsInv nodes st) :
    fragmentsInv nodes (acceptStep fm nodes built q caps st e rest) := by
  constructor
  · rw [acceptStep_fragments]
    exact ⟨_, rfl⟩
  · intro bp hbp
    rcases acceptStep_best_cases fm nodes built q caps st e rest with hb | hb
    · rw [hb] at hbp
      exact hinv.2 bp hbp
    · rw [hb] at hbp
      rw [Option.some.inj hbp.symm]
      exact ⟨_, rfl⟩

/-- The seed state keeps fragments as DSU buckets. -/
theorem seedState_fragmentsInv (fm : FloatModel) (q : ℕ) (caps : Option (List ℤ))
    (nodes : List String) (built : List Edge) :
    fragmentsInv nodes (seedState fm q caps nodes built) := by
  unfold seedState fragmentsInv components
  dsimp only
  split_ifs <;> refine ⟨⟨_, rfl⟩, ?_⟩ <;> intro bp hbp
  · rw [Option.some.inj hbp.symm]
    exact ⟨_, rfl⟩
  · cases hbp
  · cases hbp

/-- The refinement loop keeps fragments as DSU buckets. -/
theorem planLoop_fragmentsInv {fm : FloatModel} {nodes : List String} {built : List Edge}
    {q : ℕ} {caps : Option (List ℤ)} {maxOv : Option ℚ} :
    ∀ (fuel : ℕ) (st st' : LoopState),
      planLoop fm nodes built q caps maxOv fuel st = some st' →
      fragmentsInv nodes st → fragmentsInv nodes st' := by
  intro fuel
  induction fuel with
  | zero =>
    intro st st' h
    simp [planLoop] at h
  | succ fuel ih =>
    intro st st' h hinv
    rw [planLoop] at h
    rcases hc : st.candidates with _ | ⟨e, rest⟩ <;> rw [hc] at h <;> dsimp only at h
    · exact (Option.some.inj h) ▸ hinv
    · by_cases h1 : disabledHit st.disabled e = true
      · rw [if_pos h1] at h
        exact ih _ _ h hinv
      · rw [if_neg h1] at h
        by_cases h2 : overCap maxOv (st.total_overhead * e.overhead) = true
        · rw [if_pos h2] at h
          exact ih _ _ h hinv
        · rw [if_neg h2] at h
          have hinv2 := acceptStep_fragmentsInv fm nodes built q caps st e rest hinv
          by_cases h3 : q * 2 ≤ (acceptStep fm nodes built q caps st e rest).fragments.length ∧
              (100 : ℚ) < (acceptStep fm nodes built q caps st e rest).total_overhead
          · rw [if_pos h3] at h
            exact (Option.some.inj h) ▸ hinv2
          · rw [if_neg h3] at h
            exact ih _ _ h hinv2

/-- The plan returned by `planCore` carries DSU buckets of the planner's
node list as fragments. -/
theorem planCore_fragments (fm : FloatModel) (nodes : List String) (built : List Edge)
    (q : ℕ) (caps : Option (List ℤ)) (maxOv : Option ℚ) :
    ∃ r, (planCore fm nodes built q caps maxOv).fragments = groupByRep nodes r := by
  have hinv : fragmentsInv nodes
      ((planLoop fm nodes built q caps maxOv (planFuel nodes built)
        (seedState fm q caps nodes built)).getD (seedState fm q caps nodes built)) := by
    cases hres : planLoop fm nodes built q caps maxOv (planFuel nodes built)
        (seedState fm q caps nodes built) with
    | none => exact seedState_fragmentsInv fm q caps nodes built
    | some s =>
      exact planLoop_fragmentsInv _ _ _ hres (seedState_fragmentsInv fm q caps nodes built)
  unfold planCore
  dsimp only
  cases hb : ((planLoop fm nodes built q caps maxOv (planFuel nodes built)
      (seedState fm q caps nodes built)).getD (seedState fm q caps nodes built)).best with
  | none =>
    dsimp only
    exact hinv.1
  | some bp =>
    dsimp only
    exact hinv.2 bp hb

/-- **C6 (counterexample).** The claim states that the fragments of
every returned plan are pairwise disjoint with union exactly the set of
active qubits.  For a circuit with a qubit but no cuttable two-qubit
gate, the trivial plan's fragments cover **all** qubits while the
active set is empty, so the union is strictly larger. -/
theorem C6_counterexample_trivial_covers_inactive :
    get_cut_plan (⟨fun _ => 9, fun _ _ => 1, fun _ => 0⟩ : FloatModel) ["q0"] [] 1
        none none true = Except.ok ⟨0, [], 1, [["q0"]], [(1, ["q0"])]⟩ ∧
    activeNodes ["q0"]
      (buildEdges (⟨fun _ => 9, fun _ _ => 1, fun _ => 0⟩ : FloatModel) []) = [] ∧
    ([["q0"]] : List (List String)).flatten ≠ [] := by
  refine ⟨?_, ?_, ?_⟩
  · with_unfolding_all rfl
  · rfl
  · simp

/-- **C6 (amended).** For every plan `get_cut_plan` returns with the
active-only filter on and at least one active qubit, the fragments are
pairwise disjoint, their concatenation is a permutation of the active
qubits (qubits incident to at least one cuttable two-qubit gate), and
the fragment sizes sum to the number of active qubits.  (The trivial
plan returned when no qubit is active instead covers all qubits with
singletons.) -/
theorem C6_fragments_partition_active {fm : FloatModel} {nodes : List String}
    {specs : List EdgeSpec} {q : ℤ} {caps : Option (List ℤ)} {maxOv : Option ℚ}
    {plan : CutPlan}
    (h : get_cut_plan fm nodes specs q caps maxOv true = Except.ok plan)
    (hactive : activeNodes nodes (buildEdges fm specs) ≠ []) :
    plan.fragments.Pairwise (fun g1 g2 => ∀ x ∈ g1, x ∉ g2) ∧
    plan.fragments.flatten.Perm (activeNodes nodes (buildEdges fm specs)) ∧
    (plan.fragments.map List.length).sum =
      (activeNodes nodes (buildEdges fm specs)).length := by
  unfold get_cut_plan at h
  by_cases hq : q ≤ 0
  · rw [if_pos hq] at h
    cases h
  · rw [if_neg hq] at h
    dsimp only at h
    rw [if_pos rfl] at h
    have hfa : filterActive nodes (buildEdges fm specs) =
        (activeNodes nodes (buildEdges fm specs),
          (buildEdges fm specs).filter (fun e =>
            (activeNodes nodes (buildEdges fm specs)).contains e.u &&
            (activeNodes nodes (buildEdges fm specs)).contains e.v)) := by
      unfold filterActive
      rw [if_neg (by simpa [List.isEmpty_iff] using hactive)]
    rw [hfa] at h
    rw [if_neg (by simpa [List.isEmpty_iff] using hactive)] at h
    have hp := Except.ok.inj h
    obtain ⟨r, hr⟩ := planCore_fragments fm (activeNodes nodes (buildEdges fm specs))
      ((buildEdges fm specs).filter (fun e =>
        (activeNodes nodes (buildEdges fm specs)).contains e.u &&
        (activeNodes nodes (buildEdges fm specs)).contains e.v)) q.toNat caps maxOv
    rw [← hp, hr]
    refine ⟨groupByRep_pairwise _ r, groupByRep_flatten_perm _ r, ?_⟩
    rw [← List.length_flatten]
    exact (groupByRep_flatten_perm _ r).length_eq

/-- Witness for C6 at the three-qubit chain. -/
theorem C6_fragments_partition_active_witness :
    ([["q0"], ["q1"], ["q2"]] : List (List String)).Pairwise
        (fun g1 g2 => ∀ x ∈ g1, x ∉ g2) ∧
    ([["q0"], ["q1"], ["q2"]] : List (List String)).flatten.Perm
      (activeNodes ["q0", "q1", "q2"]
        (buildEdges (⟨fun _ => 9, fun _ _ => 1, fun _ => 0⟩ : FloatModel)
          [⟨"q0", "q1", "cx", none⟩, ⟨"q1", "q2", "cz", none⟩])) ∧
    (([["q0"], ["q1"], ["q2"]] : List (List String)).map List.length).sum =
      (activeNodes ["q0", "q1", "q2"]
        (buildEdges (⟨fun _ => 9, fun _ _ => 1, fun _ => 0⟩ : FloatModel)
          [⟨"q0", "q1", "cx", none⟩, ⟨"q1", "q2", "cz", none⟩])).length :=
  @C6_fragments_partition_active ⟨fun _ => 9, fun _ _ => 1, fun _ => 0⟩
    ["q0", "q1", "q2"] [⟨"q0", "q1", "cx", none⟩, ⟨"q1", "q2", "cz", none⟩] 2
    (some [2, 2]) (some 100) ⟨2,
      [⟨"q0", "q1", "cx", none, 9⟩, ⟨"q1", "q2", "cz", none, 9⟩], 81,
      [["q0"], ["q1"], ["q2"]], [(1, ["q0", "q1"]), (2, ["q2"])]⟩
    (by with_unfolding_all rfl) (by with_unfolding_all decide)

/-! ### Termination of the refinement loop (claim C10) -/

/-- Kruskal's accept loop only emits edges drawn from its input or its
accumulator. -/
theorem kruskalGo_subset {x : Edge} :
    ∀ {target : ℤ} {es : List Edge} {r : Rep} {T : List Edge},
      x ∈ kruskalGo target es r T → x ∈ es ∨ x ∈ T := by
  intro target es
  induction es with
  | nil =>
    intro r T h
    unfold kruskalGo at h
    exact Or.inr (List.mem_reverse.1 h)
  | cons e es ih =>
    intro r T h
    unfold kruskalGo at h
    by_cases hcond : repFind r e.u = repFind r e.v
    · rw [if_pos hcond] at h
      dsimp only at h
      by_cases hlen : (T.length : ℤ) = target - 1
      · rw [if_pos hlen] at h
        exact Or.inr (List.mem_reverse.1 h)
      · rw [if_neg hlen] at h
        rcases ih h with h1 | h1
        · exact Or.inl (List.mem_cons_of_mem _ h1)
        · exact Or.inr h1
    · rw [if_neg hcond] at h
      dsimp only at h
      by_cases hlen : ((e :: T).length : ℤ) = target - 1
      · rw [if_pos hlen] at h
        rcases List.mem_cons.1 (List.mem_reverse.1 h) with h1 | h1
        · exact Or.inl (h1 ▸ List.mem_cons_self _ _)
        · exact Or.inr h1
      · rw [if_neg hlen] at h
        rcases ih h with h1 | h1
        · exact Or.inl (List.mem_cons_of_mem _ h1)
        · rcases List.mem_cons.1 h1 with h2 | h2
          · exact Or.inl (h2 ▸ List.mem_cons_self _ _)
          · exact Or.inr h2

/-- Kruskal's accept loop emits at most one edge per input edge. -/
theorem kruskalGo_length :
    ∀ {target : ℤ} (es : List Edge) (r : Rep) (T : List Edge),
      (kruskalGo target es r T).length ≤ es.length + T.length := by
  intro target es
  induction es with
  | nil =>
    intro r T
    simp [kruskalGo]
  | cons e es ih =>
    intro r T
    unfold kruskalGo
    by_cases hcond : repFind r e.u = repFind r e.v
    · rw [if_pos hcond]
      dsimp only
      by_cases hlen : (T.length : ℤ) = target - 1
      · rw [if_pos hlen]
        simp only [List.length_reverse, List.length_cons]
        omega
      · rw [if_neg hlen]
        have := ih r T
        simp only [List.length_cons]
        omega
    · rw [if_neg hcond]
      dsimp only
      by_cases hlen : ((e :: T).length : ℤ) = target - 1
      · rw [if_pos hlen]
        simp only [List.length_reverse, List.length_cons]
        omega
      · rw [if_neg hlen]
        have := ih (repUnion r e.u e.v) (e :: T)
        simp only [List.length_cons] at this ⊢
        omega

/-- Every MST edge is a built edge. -/
theorem mst_subset {x : Edge} {c : List String} {built : List Edge}
    (h : x ∈ mst c built) : x ∈ built := by
  unfold mst pySortByCost at h
  rcases kruskalGo_subset h with h1 | h1
  · have h2 := (List.perm_insertionSort (fun (a b : Edge) => a.cost ≤ b.cost) _).mem_iff.1 h1
    exact (List.mem_filter.1 h2).1
  · cases h1

/-- An MST has at most as many edges as the built edge list. -/
theorem mst_length (c : List String) (built : List Edge) :
    (mst c built).length ≤ built.length := by
  unfold mst pySortByCost
  refine (kruskalGo_length _ _ _).trans ?_
  have h1 : ((built.filter (fun e => c.contains e.u && c.contains e.v)).insertionSort
      (fun a b => a.cost ≤ b.cost)).length =
        (built.filter (fun e => c.contains e.u && c.contains e.v)).length :=
    (List.perm_insertionSort _ _).length_eq
  have h2 := List.length_filter_le (fun e => c.contains e.u && c.contains e.v) built
  simpa [h1] using h2

/-- The dedup worker never grows beyond its input. -/
theorem firstDedupGo_length : ∀ (l seen : List String),
    (firstDedupGo l seen).length ≤ l.length := by
  intro l
  induction l with
  | nil => intro seen; simp [firstDedupGo]
  | cons b l ih =>
    intro seen
    unfold firstDedupGo
    by_cases hb : seen.contains b
    · rw [if_pos hb]
      exact (ih seen).trans (by simp)
    · rw [if_neg hb]
      simpa using ih (b :: seen)

/-- There are at most as many buckets as nodes. -/
theorem groupByRep_length (nodes : List String) (r : Rep) :
    (groupByRep nodes r).length ≤ nodes.length := by
  unfold groupByRep firstDedup
  rw [List.length_map]
  simpa using firstDedupGo_length (nodes.map (repFind r)) []

/-- The accepted state's candidate pool grows by at most
`|nodes| · |built|` over the remaining pool. -/
theorem acceptStep_candidates_length (fm : FloatModel) (nodes : List String)
    (built : List Edge) (q : ℕ) (caps : Option (List ℤ)) (st : LoopState) (e : Edge)
    (rest : List Edge) :
    (acceptStep fm nodes built q caps st e rest).candidates.length ≤
      rest.length + nodes.length * built.length := by
  have hc : (acceptStep fm nodes built q caps st e rest).candidates =
      pySortByCost (rest ++
        ((((rebuildFragments nodes built (ekey e :: st.disabled)).filter
          (fun c => 1 < c.length)).map (fun c => mst c built)).flatten).filter
            (fun x => !(disabledHit (ekey e :: st.disabled) x))) := rfl
  rw [hc]
  unfold pySortByCost
  rw [(List.perm_insertionSort _ _).length_eq, List.length_append]
  have hmore : ((((rebuildFragments nodes built (ekey e :: st.disabled)).filter
      (fun c => 1 < c.length)).map (fun c => mst c built)).flatten).length ≤
        nodes.length * built.length := by
    rw [List.length_flatten]
    have hsum := List.sum_le_card_nsmul
      ((((rebuildFragments nodes built (ekey e :: st.disabled)).filter
        (fun c => 1 < c.length)).map (fun c => mst c built)).map List.length)
      built.length ?_
    · refine hsum.trans ?_
      simp only [List.length_map, smul_eq_mul]
      have hlen1 : ((rebuildFragments nodes built (ekey e :: st.disabled)).filter
          (fun c => 1 < c.length)).length ≤ nodes.length := by
        refine (List.length_filter_le _ _).trans ?_
        unfold rebuildFragments
        exact groupByRep_length _ _
      exact Nat.mul_le_mul_right _ hlen1
    · intro x hx
      simp only [List.map_map, List.mem_map, Function.comp] at hx
      rcases hx with ⟨c, _, hc2⟩
      exact hc2 ▸ mst_length c built
  have hfil := List.length_filter_le (fun x => !(disabledHit (ekey e :: st.disabled) x))
    ((((rebuildFragments nodes built (ekey e :: st.disabled)).filter
      (fun c => 1 < c.length)).map (fun c => mst c built)).flatten)
  omega

/-- The accepted state's candidates still come from the built edges. -/
theorem acceptStep_candsFromBuilt (fm : FloatModel) (nodes : List String)
    (built : List Edge) (q : ℕ) (caps : Option (List ℤ)) (st : LoopState) (e : Edge)
    (rest : List Edge) (hrest : ∀ x ∈ rest, x ∈ built) :
    candsFromBuilt built (acceptStep fm nodes built q caps st e rest) := by
  intro x hx
  have hceq : (acceptStep fm nodes built q caps st e rest).candidates =
      pySortByCost (rest ++
        ((((rebuildFragments nodes built (ekey e :: st.disabled)).filter
          (fun c => 1 < c.length)).map (fun c => mst c built)).flatten).filter
            (fun x => !(disabledHit (ekey e :: st.disabled) x))) := rfl
  rw [hceq] at hx
  unfold pySortByCost at hx
  have hx2 := (List.perm_insertionSort (fun (a b : Edge) => a.cost ≤ b.cost) _).mem_iff.1 hx
  rcases List.mem_append.1 hx2 with h1 | h1
  · exact hrest x h1
  · have h2 := (List.mem_filter.1 h1).1
    rcases List.mem_flatten.1 h2 with ⟨l2, hl2, hx3⟩
    rcases List.mem_map.1 hl2 with ⟨c, _, hc⟩
    exact mst_subset (hc ▸ hx3)

/-- The initial candidate pool comes from the built edges. -/
theorem initCandidates_subset {x : Edge} {nodes : List String} {built : List Edge}
    (h : x ∈ initCandidates nodes built) : x ∈ built := by
  unfold initCandidates pySortByCost at h
  have h2 := (List.perm_insertionSort (fun (a b : Edge) => a.cost ≤ b.cost) _).mem_iff.1 h
  rcases List.mem_flatten.1 h2 with ⟨l2, hl2, hx3⟩
  rcases List.mem_map.1 hl2 with ⟨c, _, hc⟩
  exact mst_subset (hc ▸ hx3)

/-- The seed state keeps the initial candidate pool. -/
theorem seedState_candidates (fm : FloatModel) (q : ℕ) (caps : Option (List ℤ))
    (nodes : List String) (built : List Edge) :
    (seedState fm q caps nodes built).candidates = initCandidates nodes built := by
  unfold seedState
  dsimp only
  split_ifs <;> rfl

/-- The seed state starts with nothing disabled. -/
theorem seedState_disabled (fm : FloatModel) (q : ℕ) (caps : Option (List ℤ))
    (nodes : List String) (built : List Edge) :
    (seedState fm q caps nodes built).disabled = [] := by
  unfold seedState
  dsimp only
  split_ifs <;> rfl

/-- Fuel at least the loop measure suffices: the refinement loop always
exits through one of its own exits, never by fuel exhaustion. -/
theorem planLoop_isSome {fm : FloatModel} {nodes : List String} {built : List Edge}
    {q : ℕ} {caps : Option (List ℤ)} {maxOv : Option ℚ} :
    ∀ (fuel : ℕ) (st : LoopState), candsFromBuilt built st →
      loopMeasure nodes built st ≤ fuel →
      (planLoop fm nodes built q caps maxOv fuel st).isSome = true := by
  intro fuel
  induction fuel with
  | zero =>
    intro st _ hμ
    unfold loopMeasure at hμ
    omega
  | succ fuel ih =>
    intro st hc hμ
    rw [planLoop]
    rcases hcand : st.candidates with _ | ⟨e, rest⟩ <;> dsimp only
    · rfl
    · have hμ2 : loopMeasure nodes built st =
          (keysOf built \ st.disabled.toFinset).card * (1 + nodes.length * built.length) +
            rest.length + 2 := by
        unfold loopMeasure
        rw [hcand]
        simp only [List.length_cons]
        omega
      by_cases h1 : disabledHit st.disabled e = true
      · rw [if_pos h1]
        refine ih _ (fun x hx => hc x (hcand ▸ List.mem_cons_of_mem _ hx)) ?_
        unfold loopMeasure
        dsimp only
        omega
      · rw [if_neg h1]
        by_cases h2 : overCap maxOv (st.total_overhead * e.overhead) = true
        · rw [if_pos h2]
          refine ih _ (fun x hx => hc x (hcand ▸ List.mem_cons_of_mem _ hx)) ?_
          unfold loopMeasure
          dsimp only
          omega
        · rw [if_neg h2]
          by_cases h3 : q * 2 ≤ (acceptStep fm nodes built q caps st e rest).fragments.length ∧
              (100 : ℚ) < (acceptStep fm nodes built q caps st e rest).total_overhead
          · rw [if_pos h3]
            rfl
          · rw [if_neg h3]
            have hkey : ekey e ∈ keysOf built \ st.disabled.toFinset := by
              refine Finset.mem_sdiff.2 ⟨?_, ?_⟩
              · have he : e ∈ built := hc e (hcand ▸ List.mem_cons_self _ _)
                exact List.mem_toFinset.2 (List.mem_map_of_mem _ he)
              · intro hmem
                have h4 : st.disabled.contains (ekey e) = true :=
                  List.elem_eq_true_of_mem (List.mem_toFinset.1 hmem)
                exact h1 (by unfold disabledHit; rw [h4]; rfl)
            have hdis2 : (acceptStep fm nodes built q caps st e rest).disabled.toFinset =
                insert (ekey e) st.disabled.toFinset := by
              rw [acceptStep_disabled]
              exact List.toFinset_cons
            have hcard : (keysOf built \
                (acceptStep fm nodes built q caps st e rest).disabled.toFinset).card + 1 =
                  (keysOf built \ st.disabled.toFinset).card := by
              rw [hdis2, Finset.sdiff_insert]
              exact Finset.card_erase_add_one hkey
            have hclen := acceptStep_candidates_length fm nodes built q caps st e rest
            refine ih _ (acceptStep_candsFromBuilt fm nodes built q caps st e rest
              (fun x hx => hc x (hcand ▸ List.mem_cons_of_mem _ hx))) ?_
            unfold loopMeasure
            have hexp : ((keysOf built \ st.disabled.toFinset).card - 1) *
                (1 + nodes.length * built.length) + (1 + nodes.length * built.length) =
                  (keysOf built \ st.disabled.toFinset).card *
                    (1 + nodes.length * built.length) := by
              have hpos : 0 < (keysOf built \ st.disabled.toFinset).card :=
                Finset.card_pos.2 ⟨_, hkey⟩
              calc ((keysOf built \ st.disabled.toFinset).card - 1) *
                    (1 + nodes.length * built.length) + (1 + nodes.length * built.length)
                  = ((keysOf built \ st.disabled.toFinset).card - 1 + 1) *
                      (1 + nodes.length * built.length) := by ring
                _ = (keysOf built \ st.disabled.toFinset).card *
                      (1 + nodes.length * built.length) := by
                    congr 1
                    omega
            have hle : (keysOf built \
                (acceptStep fm nodes built q caps st e rest).disabled.toFinset).card *
                  (1 + nodes.length * built.length) +
                (acceptStep fm nodes built q caps st e rest).candidates.length + 1 + 1 ≤
                  loopMeasure nodes built st := by
              rw [hμ2]
              have h5 : (keysOf built \
                  (acceptStep fm nodes built q caps st e rest).disabled.toFinset).card =
                    (keysOf built \ st.disabled.toFinset).card - 1 := by omega
              rw [h5]
              have h6 := Nat.add_le_add_left
                (Nat.add_le_add_right hclen 1) (((keysOf built \ st.disabled.toFinset).card - 1) *
                  (1 + nodes.length * built.length))
              calc ((keysOf built \ st.disabled.toFinset).card - 1) *
                    (1 + nodes.length * built.length) +
                    (acceptStep fm nodes built q caps st e rest).candidates.length + 1 + 1
                  ≤ ((keysOf built \ st.disabled.toFinset).card - 1) *
                      (1 + nodes.length * built.length) +
                      (rest.length + nodes.length * built.length) + 1 + 1 := by omega
                _ = ((keysOf built \ st.disabled.toFinset).card - 1) *
                      (1 + nodes.length * built.length) +
                      (1 + nodes.length * built.length) + rest.length + 1 := by ring
                _ = (keysOf built \ st.disabled.toFinset).card *
                      (1 + nodes.length * built.length) + rest.length + 1 := by rw [hexp]
                _ ≤ (keysOf built \ st.disabled.toFinset).card *
                      (1 + nodes.length * built.length) + rest.length + 2 := by omega
            omega

/-- **C10.** `get_cut_plan` terminates on every input: the greedy
refinement loop performs only finitely many iterations.  Formally, the
fuelled loop exactly as invoked by `planCore` — fuel `planFuel`, seed
`seedState` — always returns a state (never exhausts its fuel): each
accepted cut permanently disables a fresh key of the finite built-edge
key set, replenishment adds at most `|nodes| · |built|` candidates and
only on acceptance, and every non-accepting iteration shrinks the
candidate pool, so the measure
`|non-disabled keys| · (1 + |nodes|·|built|) + |candidates| + 1`
strictly decreases. -/
theorem C10_refinement_loop_terminates (fm : FloatModel) (nodes : List String)
    (built : List Edge) (q : ℕ) (caps : Option (List ℤ)) (maxOv : Option ℚ) :
    (planLoop fm nodes built q caps maxOv (planFuel nodes built)
      (seedState fm q caps nodes built)).isSome = true := by
  refine planLoop_isSome _ _ ?_ ?_
  · intro x hx
    rw [seedState_candidates] at hx
    exact initCandidates_subset hx
  · unfold loopMeasure planFuel
    rw [seedState_candidates, seedState_disabled]
    have h1 : (keysOf built \ ([] : List EKey).toFinset).card ≤ built.length := by
      simp only [List.toFinset_nil, Finset.sdiff_empty]
      exact (List.toFinset_card_le _).trans (by simp [keysOf, List.length_map])
    have h2 : (keysOf built \ ([] : List EKey).toFinset).card *
        (1 + nodes.length * built.length) ≤
          built.length * (1 + nodes.length * built.length) :=
      Nat.mul_le_mul_right _ h1
    have h3 : built.length * (1 + nodes.length * built.length) ≤
        (built.length + 1) * (1 + nodes.length * built.length) :=
      Nat.mul_le_mul_right _ (by omega)
    omega

/-! ### Round-robin rotation (claim C8) -/

/-- One non-empty round-robin selection: the value at
`current_index % n`, index advanced. -/
theorem roundRobinSelect_ne (resources : Catalogue) (hne : resources ≠ []) (s : ℕ) :
    roundRobinSelect ⟨s⟩ resources =
      ((resources.map Prod.snd)[s % (resources.map Prod.snd).length]?, ⟨s + 1⟩) := by
  unfold roundRobinSelect
  rw [if_neg (fun h => hne (List.isEmpty_iff.1 h))]

/-- The `i`-th of `k` consecutive round-robin selections starting at
index `s` is the catalogue value at position `(s + i) % n`. -/
theorem roundRobinRun_eq (resources : Catalogue) (hne : resources ≠ []) :
    ∀ (k s : ℕ), roundRobinRun resources ⟨s⟩ k =
      (List.range k).map
        (fun i => (resources.map Prod.snd)[(s + i) % resources.length]?) := by
  intro k
  induction k with
  | zero => intro s; simp [roundRobinRun]
  | succ k ih =>
    intro s
    have hstep : roundRobinRun resources ⟨s⟩ (k + 1) =
        (roundRobinSelect ⟨s⟩ resources).1 ::
          roundRobinRun resources (roundRobinSelect ⟨s⟩ resources).2 k := rfl
    rw [hstep, roundRobinSelect_ne resources hne s]
    rw [List.range_succ_eq_map, List.map_cons, List.map_map]
    congr 1
    · simp [List.length_map]
    · rw [ih (s + 1)]
      refine List.map_congr_left ?_
      intro i _
      simp only [Function.comp]
      have harith : s + 1 + i = s + (i + 1) := by omega
      rw [harith]

/-- Closed form for the number of `m < t` with `m % n = r`. -/
theorem count_mod_range {n r : ℕ} (hn : 0 < n) (hr : r < n) :
    ∀ t, ((List.range t).filter (fun m => m % n = r)).length = (t + (n - 1 - r)) / n := by
  intro t
  induction t with
  | zero =>
    rw [Nat.div_eq_of_lt (by omega)]
    simp
  | succ t ih =>
    rw [List.range_succ, List.filter_append, List.length_append, ih]
    have hkey : (t % n = r) ↔ n ∣ (t + (n - 1 - r) + 1) := by
      have harr : t + (n - 1 - r) + 1 = t + (n - r) := by omega
      rw [harr]
      constructor
      · intro h
        have ht : n * (t / n) + r = t := by
          rw [← h]
          exact Nat.div_add_mod t n
        refine ⟨t / n + 1, ?_⟩
        have hexp : n * (t / n + 1) = n * (t / n) + n := by ring
        omega
      · rintro ⟨m, hm⟩
        have ha : t % n < n := Nat.mod_lt _ hn
        have ht : t = n * (t / n) + t % n := (Nat.div_add_mod t n).symm
        have hm2 : t % n + (n - r) = n * m - n * (t / n) := by omega
        have hdvd2 : n ∣ t % n + (n - r) := by
          rw [hm2]
          exact Nat.dvd_sub' ⟨m, rfl⟩ ⟨t / n, rfl⟩
        rcases hdvd2 with ⟨m2, hm3⟩
        have hb1 : 0 < t % n + (n - r) := by omega
        have hb2 : t % n + (n - r) < 2 * n := by omega
        have hm2eq : m2 = 1 := by
          rcases Nat.lt_or_ge m2 2 with h2 | h2
          · interval_cases m2
            · omega
            · rfl
          · exfalso
            have : n * 2 ≤ n * m2 := Nat.mul_le_mul_left n h2
            omega
        rw [hm2eq, Nat.mul_one] at hm3
        omega
    rw [show t + 1 + (n - 1 - r) = t + (n - 1 - r) + 1 from by omega, Nat.succ_div]
    by_cases hc : t % n = r
    · rw [if_pos (hkey.1 hc)]
      simp [hc]
    · rw [if_neg (fun hd => hc (hkey.2 hd))]
      simp [hc]

/-- A shifted congruence class is a plain congruence class. -/
theorem shift_mod_eq {n s j : ℕ} (hn : 0 < n) (hj : j < n) (i : ℕ) :
    ((s + i) % n = j) ↔ (i % n = (j + (n - s % n)) % n) := by
  have hsr : (s + (j + (n - s % n)) % n) % n = j := by
    have h1 : (s + (j + (n - s % n)) % n) % n = (s + (j + (n - s % n))) % n :=
      Nat.add_mod_mod s (j + (n - s % n)) n
    rw [h1]
    have hsm : s % n ≤ n := le_of_lt (Nat.mod_lt _ hn)
    have h2 : s + (j + (n - s % n)) = j + (n * (s / n) + n) := by
      have ht : s = n * (s / n) + s % n := (Nat.div_add_mod s n).symm
      omega
    rw [h2]
    have h3 : j + (n * (s / n) + n) = j + n * (s / n + 1) := by ring
    rw [h3, Nat.add_mul_mod_self_left]
    exact Nat.mod_eq_of_lt hj
  constructor
  · intro h
    have hmod : (s + i) % n = (s + (j + (n - s % n)) % n) % n := by rw [h, hsr]
    have hcancel : i ≡ (j + (n - s % n)) % n [MOD n] :=
      Nat.ModEq.add_left_cancel' s hmod
    calc i % n = (j + (n - s % n)) % n % n := hcancel
      _ = (j + (n - s % n)) % n := Nat.mod_mod_of_dvd _ dvd_rfl
  · intro h
    have hcong : s + i ≡ s + (j + (n - s % n)) % n [MOD n] := by
      refine Nat.ModEq.add_left s ?_
      unfold Nat.ModEq
      rw [h]
      exact (Nat.mod_mod_of_dvd _ dvd_rfl).symm
    calc (s + i) % n = (s + (j + (n - s % n)) % n) % n := hcong
      _ = j := hsr

/-- **C8.** Round-robin rotation law: starting from any index `s`
(index `0` for a fresh strategy), the `i`-th of `k` consecutive
selections over a fixed non-empty catalogue of size `n` returns the
catalogue value at position `(s + i) % n` — catalogue insertion order —
and consequently each position `j` is returned at least `⌊k/n⌋` and at
most `⌈k/n⌉ = (k + n - 1)/n` times. -/
theorem C8_round_robin_law (resources : Catalogue) (hne : resources ≠ []) (s k j : ℕ)
    (hj : j < resources.length) :
    roundRobinRun resources ⟨s⟩ k =
      (List.range k).map
        (fun i => (resources.map Prod.snd)[(s + i) % resources.length]?) ∧
    k / resources.length ≤
      ((List.range k).filter (fun i => (s + i) % resources.length = j)).length ∧
    ((List.range k).filter (fun i => (s + i) % resources.length = j)).length ≤
      (k + resources.length - 1) / resources.length := by
  have hn : 0 < resources.length := List.length_pos.2 hne
  refine ⟨roundRobinRun_eq resources hne k s, ?_, ?_⟩ <;>
    rw [show ((List.range k).filter (fun i => (s + i) % resources.length = j)) =
        ((List.range k).filter (fun i =>
          i % resources.length = (j + (resources.length - s % resources.length)) %
            resources.length)) from
      List.filter_congr (fun i _ => decide_eq_decide.2 (shift_mod_eq hn hj i))] <;>
    rw [count_mod_range hn (Nat.mod_lt _ hn) k]
  · exact Nat.div_le_div_right (by omega)
  · refine Nat.div_le_div_right ?_
    have := Nat.mod_lt (j + (resources.length - s % resources.length)) hn
    omega

/-- Witness for C8: two resources, three fresh selections. -/
theorem C8_round_robin_law_witness :
    (([("a", (⟨"a", 1, [], 0, 0, [], none⟩ : QuantumResource)),
        ("b", ⟨"b", 2, [], 0, 0, [], none⟩)] : Catalogue) ≠ [] ∧ 0 < 2) ∧
    (roundRobinRun [("a", ⟨"a", 1, [], 0, 0, [], none⟩), ("b", ⟨"b", 2, [], 0, 0, [], none⟩)]
        ⟨0⟩ 3 =
      (List.range 3).map (fun i =>
        (([("a", (⟨"a", 1, [], 0, 0, [], none⟩ : QuantumResource)),
          ("b", ⟨"b", 2, [], 0, 0, [], none⟩)] : Catalogue).map Prod.snd)[(0 + i) % 2]?) ∧
      3 / 2 ≤ ((List.range 3).filter (fun i => (0 + i) % 2 = 0)).length ∧
      ((List.range 3).filter (fun i => (0 + i) % 2 = 0)).length ≤ (3 + 2 - 1) / 2) :=
  ⟨⟨by decide, by decide⟩,
   C8_round_robin_law
     [("a", ⟨"a", 1, [], 0, 0, [], none⟩), ("b", ⟨"b", 2, [], 0, 0, [], none⟩)]
     (by with_unfolding_all decide) 0 3 0 (by decide)⟩

end Qtau
